import Mathlib

/-! # bluetooth_6lowpand: advertising parser, whitelist store and control loop

A shallow embedding of `src/bluetooth_6lowpand.c`.  Bytes are natural numbers
read modulo 256, memory regions are lists of bytes, and a C pointer into a
region is the suffix of the list that starts at the pointed byte.
-/

set_option autoImplicit false

namespace Bluetooth6lowpand

/-! ## Constants of the source -/

def MAX_BLE_CONN : Nat := 8
def IPSP_UUID : Nat := 0x1820
def NORDIC_COMPANY_ID : Nat := 0x0059
def EIR_UUID16_SOME : Nat := 0x02
def EIR_UUID16_ALL : Nat := 0x03
def EIR_NAME_SHORT : Nat := 0x08
def EIR_NAME_COMPLETE : Nat := 0x09
def EIR_MANUF_SPECIFIC_DATA : Nat := 0xFF
def DEVICE_NAME_LEN : Nat := 30
def DEVICE_ADDR_LEN : Nat := 18
def CONFIG_LINE_MAX : Nat := 256
def AUTH_SSID_MAX_LEN : Nat := 16
def AUTH_KEY_LEN : Nat := 6

/-- Number of values of a `size_t` (64-bit target). -/
def SIZE_MOD : Nat := 2 ^ 64

/-- The enumeration `commissioning_auth_t`. -/
inductive commissioning_auth_t where
  | COMMISSIONING_AUTH_NONE
  | COMMISSIONING_AUTH_WIFI_CFG
  | COMMISSIONING_AUTH_MANUAL
  deriving DecidableEq

open commissioning_auth_t

/-! ## Byte memory -/

/-- The byte at index `i` of a memory region.  An index beyond the list reads
as 0: the only caller zero-fills its event buffer before every `read`. -/
def rd (m : List Nat) (i : Nat) : Nat := m.getD i 0 % 256

/-- `put_le16(v, dst)`: store the 16-bit value little-endian at `dst[0..1]`. -/
def put_le16 (v : Nat) (dst : List Nat) : List Nat :=
  (dst.set 0 (v % 256)).set 1 (v / 256 % 256)

/-- `memcpy(dst + doff, src + soff, n)` on a destination region of fixed size:
bytes that would land outside the region are not stored here (they are
recorded by the caller's write log). -/
def memcpy (dst : List Nat) (doff : Nat) (src : List Nat) (soff n : Nat) : List Nat :=
  (List.range dst.length).map fun i =>
    if doff ≤ i ∧ i < doff + n then rd src (soff + (i - doff)) else dst.getD i 0

/-- `memcmp(a, b + boff, n) == 0`: the first `n` bytes agree. -/
def memcmp_eq (a b : List Nat) (boff n : Nat) : Bool :=
  (List.range n).all fun i => rd a i == rd b (boff + i)

/-! ## parse_ip_service -/

/-- Local variables of `parse_ip_service`, the globals it uses, and a log of
what it touches.  `eir` is the pointer `eir` (the memory from the current
field on), `reads` the indices of the advertisement bytes read so far
(counted from the start of the advertisement), `writes` the indices of `buf`
written so far. -/
structure PState where
  eir : List Nat
  offset : Nat
  ipsp_service : Bool
  ssid_correct : Bool
  val : List Nat
  buf : List Nat
  auth_ssid_value : List Nat
  auth_ssid_len : Nat
  wifi_calls : Nat
  reads : List Nat
  writes : List Nat
  iterations : Nat
  deriving DecidableEq

/-- What `parse_ip_service` hands back: the returned boolean, the name
buffer, and the logs. -/
structure PResult where
  ret : Bool
  buf : List Nat
  reads : List Nat
  writes : List Nat
  iterations : Nat
  deriving DecidableEq

/-- One iteration of the `while (offset < eir_len)` loop body.  `none` is the
early `return 0` taken when `read_wifi_cfg()` fails.  `wifi k` is the outcome
of the `k`-th call of `read_wifi_cfg` in this run: `none` for -1, `some s`
when it stored the identifier string `s` (cut to 16 bytes as
`validate_store_auth_params` does). -/
def field_step (auth_type : commissioning_auth_t) (wifi : Nat → Option (List Nat))
    (buf_len : Nat) (st : PState) : Option PState :=
  let field_len := rd st.eir 0
  let tag := rd st.eir 1
  let st0 : PState :=
    { st with reads := st.reads ++ [st.offset, st.offset + 1],
              iterations := st.iterations + 1 }
  let advance (s : PState) : PState :=
    { s with offset := s.offset + field_len + 1, eir := s.eir.drop (field_len + 1) }
  if tag = EIR_UUID16_SOME ∨ tag = EIR_UUID16_ALL then
    let val := put_le16 IPSP_UUID st0.val
    some (advance { st0 with
      val := val
      ipsp_service := if memcmp_eq val st.eir 2 (field_len / 2) then true else st0.ipsp_service
      reads := st0.reads ++ (List.range (field_len / 2)).map fun i => st.offset + 2 + i })
  else if tag = EIR_NAME_SHORT ∨ tag = EIR_NAME_COMPLETE then
    let n := (field_len + SIZE_MOD - 1) % SIZE_MOD
    if n > buf_len then
      some (advance st0)
    else
      some (advance { st0 with
        buf := memcpy st0.buf 0 st.eir 2 n
        reads := st0.reads ++ (List.range n).map fun i => st.offset + 2 + i
        writes := st0.writes ++ List.range n })
  else if tag = EIR_MANUF_SPECIFIC_DATA then
    let val := put_le16 NORDIC_COMPANY_ID st0.val
    let cfg : Option PState :=
      if auth_type = COMMISSIONING_AUTH_WIFI_CFG then
        match wifi st0.wifi_calls with
        | none => none
        | some s => some { st0 with
            auth_ssid_value := s.take AUTH_SSID_MAX_LEN ++ [0]
            auth_ssid_len := min s.length AUTH_SSID_MAX_LEN
            wifi_calls := st0.wifi_calls + 1 }
      else some st0
    match cfg with
    | none => none
    | some st1 =>
      let val2 := memcpy val 2 st1.auth_ssid_value 0 st1.auth_ssid_len
      some (advance { st1 with
        val := val2
        ssid_correct :=
          if memcmp_eq val2 st.eir 2 (st1.auth_ssid_len + 2) ∧
              st1.auth_ssid_len = (field_len + SIZE_MOD - 3) % SIZE_MOD
          then true else st1.ssid_correct
        reads := st1.reads ++ (List.range (st1.auth_ssid_len + 2)).map fun i => st.offset + 2 + i })
  else
    some (advance st0)

/-- The value of the `return` statement after the loop. -/
def finish (auth_type : commissioning_auth_t) (st : PState) : PResult :=
  { ret := st.ipsp_service && (st.ssid_correct || decide (auth_type = COMMISSIONING_AUTH_NONE))
    buf := st.buf, reads := st.reads, writes := st.writes, iterations := st.iterations }

/-- The result of the `return 0` taken inside the loop body. -/
def early_return (st : PState) : PResult :=
  { ret := false, buf := st.buf, reads := st.reads ++ [st.offset, st.offset + 1],
    writes := st.writes, iterations := st.iterations + 1 }

/-- The `while (offset < eir_len)` loop, with a bound on the number of
iterations; `none` when the bound is used up. -/
def parse_loop (auth_type : commissioning_auth_t) (wifi : Nat → Option (List Nat))
    (eir_len buf_len : Nat) : Nat → PState → Option PResult
  | 0, _ => none
  | fuel + 1, st =>
    if st.offset < eir_len then
      match field_step auth_type wifi buf_len st with
      | none => some (early_return st)
      | some st1 => parse_loop auth_type wifi eir_len buf_len fuel st1
    else some (finish auth_type st)

/-- The state on entry of the loop. -/
def parse_init (auth_ssid_value : List Nat) (auth_ssid_len : Nat) (eir buf : List Nat) : PState :=
  { eir := eir, offset := 0, ipsp_service := false, ssid_correct := false,
    val := List.replicate 256 0, buf := buf,
    auth_ssid_value := auth_ssid_value, auth_ssid_len := auth_ssid_len,
    wifi_calls := 0, reads := [], writes := [], iterations := 0 }

/-- The function `parse_ip_service(eir, eir_len, buf, buf_len)` under the globals
`auth_type`, `auth_ssid_value`, `auth_ssid_len`.  Every iteration advances
`offset` by at least 1, so `eir_len + 1` iterations always suffice. -/
def parse_ip_service (auth_type : commissioning_auth_t) (wifi : Nat → Option (List Nat))
    (auth_ssid_value : List Nat) (auth_ssid_len : Nat)
    (eir : List Nat) (eir_len : Nat) (buf : List Nat) (buf_len : Nat) : Option PResult :=
  parse_loop auth_type wifi eir_len buf_len (eir_len + 1)
    (parse_init auth_ssid_value auth_ssid_len eir buf)

/-- State after `k` iterations of the loop, when the loop runs that long. -/
def reach (auth_type : commissioning_auth_t) (wifi : Nat → Option (List Nat))
    (eir_len buf_len : Nat) : Nat → PState → Option PState
  | 0, st => some st
  | k + 1, st =>
    if st.offset < eir_len then
      match field_step auth_type wifi buf_len st with
      | none => none
      | some st1 => reach auth_type wifi eir_len buf_len k st1
    else none

/-- The result when the loop body is run once from `st` and the loop then ends. -/
def last_field (auth_type : commissioning_auth_t) (wifi : Nat → Option (List Nat))
    (buf_len : Nat) (st : PState) : PResult :=
  match field_step auth_type wifi buf_len st with
  | none => early_return st
  | some st1 => finish auth_type st1

/-! ## Well-formed advertisements -/

/-- One advertising field `[length][tag][payload]` with `length = |payload| + 1`. -/
def encode_field (f : Nat × List Nat) : List Nat := (f.2.length + 1) :: f.1 :: f.2

/-- The advertisement made of the given `(tag, payload)` fields, in order. -/
def encode (fs : List (Nat × List Nat)) : List Nat := fs.flatMap encode_field

/-- Every element is a byte. -/
def is_bytes (l : List Nat) : Prop := ∀ b ∈ l, b < 256

instance (l : List Nat) : Decidable (is_bytes l) := by
  unfold is_bytes; infer_instance

/-- A field that fits the wire format: tag, length and payload are bytes. -/
def wf_field (f : Nat × List Nat) : Prop :=
  f.1 < 256 ∧ f.2.length + 1 < 256 ∧ is_bytes f.2

instance (f : Nat × List Nat) : Decidable (wf_field f) := by
  unfold wf_field; infer_instance

/-- An advertisement given by well-formed fields. -/
def wf_adv (fs : List (Nat × List Nat)) : Prop := ∀ f ∈ fs, wf_field f

instance (fs : List (Nat × List Nat)) : Decidable (wf_adv fs) := by
  unfold wf_adv; infer_instance

/-- The field is a 16-bit UUID list holding exactly the target UUID 0x1820. -/
def is_ipsp_field (f : Nat × List Nat) : Prop :=
  (f.1 = EIR_UUID16_SOME ∨ f.1 = EIR_UUID16_ALL) ∧ f.2 = [0x20, 0x18]

instance (f : Nat × List Nat) : Decidable (is_ipsp_field f) := by
  unfold is_ipsp_field; infer_instance

/-- Some field of the advertisement is such a UUID field. -/
def has_ipsp_field (fs : List (Nat × List Nat)) : Prop := ∃ f ∈ fs, is_ipsp_field f

instance (fs : List (Nat × List Nat)) : Decidable (has_ipsp_field fs) := by
  unfold has_ipsp_field; infer_instance

/-- The field is a vendor-specific field whose payload is the company id
0x0059 (little-endian) followed by exactly the bytes of `S`. -/
def is_ssid_field (S : List Nat) (f : Nat × List Nat) : Prop :=
  f.1 = EIR_MANUF_SPECIFIC_DATA ∧ f.2.length + 1 = S.length + 3 ∧ f.2 = 0x59 :: 0x00 :: S

instance (S : List Nat) (f : Nat × List Nat) : Decidable (is_ssid_field S f) := by
  unfold is_ssid_field; infer_instance

/-- Some field of the advertisement is such a vendor field. -/
def has_ssid_field (S : List Nat) (fs : List (Nat × List Nat)) : Prop :=
  ∃ f ∈ fs, is_ssid_field S f

instance (S : List Nat) (fs : List (Nat × List Nat)) : Decidable (has_ssid_field S fs) := by
  unfold has_ssid_field; infer_instance

/-- The identifier "OpenWRT". -/
def ssid_OpenWRT : List Nat := [79, 112, 101, 110, 87, 82, 84]
/-- The identifier "otherlan". -/
def ssid_otherlan : List Nat := [111, 116, 104, 101, 114, 108, 97, 110]
/-- The device name "sensor-7". -/
def name_sensor7 : List Nat := [115, 101, 110, 115, 111, 114, 45, 55]

/-! ## C strings and stdio

File contents and strings are lists of byte values.  A `char *` is the list of
the bytes from the pointed one to the end of its memory region; the string it
denotes ends before the first NUL. -/

/-- The bytes of a string literal. -/
def str (s : String) : List Nat := s.toList.map Char.toNat

/-- The C string at a pointer: the bytes before the first NUL. -/
def cstr (p : List Nat) : List Nat := p.takeWhile (· ≠ 0)

/-- `strlen(p)`. -/
def strlen (p : List Nat) : Nat := (cstr p).length

/-- `tolower(c)` in the C locale. -/
def tolower (c : Nat) : Nat := if 65 ≤ c ∧ c ≤ 90 then c + 32 else c

/-- `strncasecmp(s1, s2, n) == 0`: the strings agree, letter case ignored, up
to `n` bytes or a common terminator.  A byte past the end of a region counts
as NUL. -/
def strncasecmp_eq : Nat → List Nat → List Nat → Bool
  | 0, _, _ => true
  | n + 1, s1, s2 =>
    if tolower (s1.headD 0) ≠ tolower (s2.headD 0) then false
    else if s1.headD 0 = 0 then true
    else strncasecmp_eq n s1.tail s2.tail

/-- Index of the first occurrence of `needle` in a list. -/
def find_sub (needle : List Nat) : List Nat → Option Nat
  | [] => if needle = [] then some 0 else none
  | c :: cs =>
    if needle.isPrefixOf (c :: cs) then some 0
    else (find_sub needle cs).map (· + 1)

/-- `strstr(hay, needle)`, as the index of the match in `hay`, `none` for NULL. -/
def strstr (hay needle : List Nat) : Option Nat := find_sub needle (cstr hay)

/-- Index of the first occurrence of the byte `c` in a list. -/
def find_byte (c : Nat) : List Nat → Option Nat
  | [] => none
  | b :: bs => if b = c then some 0 else (find_byte c bs).map (· + 1)

/-- `strchr(s, c)` for a non-NUL `c`, as an index, `none` for NULL. -/
def strchr (s : List Nat) (c : Nat) : Option Nat := find_byte c (cstr s)

/-- The bytes one `fgets` call takes from the stream: at most `n`, ending
after the first newline. -/
def fgets_take : Nat → List Nat → List Nat
  | 0, _ => []
  | _ + 1, [] => []
  | n + 1, c :: cs => if c = 10 then [c] else c :: fgets_take n cs

/-- `fgets(item, size, fp)` on a stream whose unread content is `fp`: `none`
is NULL (end of file, `item` untouched); otherwise the new content of `item`
(the bytes taken, a NUL, and what the buffer held beyond) and the rest of the
stream. -/
def fgets (item : List Nat) (size : Nat) (fp : List Nat) : Option (List Nat × List Nat) :=
  if fp = [] then none
  else
    let got := fgets_take (size - 1) fp
    some (got ++ [0] ++ item.drop (got.length + 1), fp.drop got.length)

/-- `memset(item, 0, sizeof(item))` for `char item[CONFIG_LINE_MAX]`.  The
commands also start from this content: the source leaves `item` uninitialised
before the first `fgets`, and only bytes beyond the terminator of the first
line could differ. -/
def item_zero : List Nat := List.replicate 256 0

/-- An output `FILE` opened by `fopen(path, "w")`: the bytes that reached the
file and the bytes still held in the stdio buffer. -/
structure OStream where
  disk : List Nat
  buffer : List Nat
  deriving DecidableEq

/-- Writing `data` to a fully buffered stream whose buffer holds `bufsiz`
bytes: whole buffers go to the file, the remainder stays in the buffer until
`fflush`, `fclose` or `exit`. -/
def fwrite (bufsiz : Nat) (s : OStream) (data : List Nat) : OStream :=
  let all := s.buffer ++ data
  let k := all.length / bufsiz * bufsiz
  { disk := s.disk ++ all.take k, buffer := all.drop k }

/-- The files and process state the whitelist commands act on.  `conf` and
`swp` are the contents of `CONFIG_PATH` and `CONFIG_SWP_PATH` on disk (`none`
when the path does not exist); `locked` says that `F_SETLK` on the primary file
fails with `EAGAIN`/`EACCES` because another process holds the lock;
`unflushed` holds the bytes left in the stdio buffer of a stream of the running
process that is still open on the file now named `CONFIG_PATH`; `stdout` is
what has been printed. -/
structure World where
  conf : Option (List Nat)
  swp : Option (List Nat)
  locked : Bool
  unflushed : List Nat
  stdout : List Nat
  deriving DecidableEq

/-- The call `exit(0)` that `main` makes after a command: the open streams are
flushed, which appends the buffered bytes to the file the stream is open on. -/
def exit_process (w : World) : World :=
  { w with conf := w.conf.map (· ++ w.unflushed), unflushed := [] }

/-- The text `fprintf(fp, "{\n\taddress=\"%s\"\n}\n", argv)` appends. -/
def addwl_record (argv : List Nat) : List Nat :=
  str "\x7b\n\taddress=\"" ++ cstr argv ++ str "\"\n\x7d\n"

/-- The scan loop of `cmd_addwl`: `some true` when a line has the keyword
`address` followed, 9 bytes on, by the given address (the function returns
without writing), `some false` at end of file, `none` when the bound on the
number of `fgets` calls is used up. -/
def addwl_scan (argv : List Nat) : Nat → List Nat → List Nat → Option Bool
  | 0, _, _ => none
  | fuel + 1, fp, item =>
    match fgets item CONFIG_LINE_MAX fp with
    | none => some false
    | some (item1, fp1) =>
      match strstr item1 (str "address") with
      | some i =>
        if strncasecmp_eq 17 (item1.drop (i + 9)) argv then some true
        else addwl_scan argv fuel fp1 item_zero
      | none => addwl_scan argv fuel fp1 item_zero

/-- The function `cmd_addwl(argv)`.  `none`: the call does not return (it
waits while the staging file exists, or retries a lock that stays refused).
Opening the file is taken to succeed; `fopen(.., "a+")` creates a missing file
and reads from the start; the record is flushed and the stream closed before
the return. -/
def cmd_addwl (argv : List Nat) (w : World) : Option World :=
  if strlen argv ≠ 17 then some w
  else if w.swp.isSome then none
  else if w.locked then none
  else
    let content := w.conf.getD []
    match addwl_scan argv (content.length + 1) content item_zero with
    | none => none
    | some true => some { w with conf := some content }
    | some false => some { w with conf := some (content ++ addwl_record argv) }

/-- The scan loop of `check_whitelist`. -/
def check_scan (target_addr : List Nat) : Nat → List Nat → List Nat → Option Bool
  | 0, _, _ => none
  | fuel + 1, fp, item =>
    match fgets item CONFIG_LINE_MAX fp with
    | none => some false
    | some (item1, fp1) =>
      match strchr item1 34 with
      | some i =>
        if strncasecmp_eq 17 (item1.drop (i + 1)) target_addr then some true
        else check_scan target_addr fuel fp1 item_zero
      | none => check_scan target_addr fuel fp1 item_zero

/-- The function `check_whitelist(target_addr)`: the returned boolean and the
world it leaves.  `none`: the call does not return (it waits while the staging
file exists). -/
def check_whitelist (target_addr : List Nat) (w : World) : Option (Bool × World) :=
  if w.swp.isSome then none
  else
    let content := w.conf.getD []
    if w.locked then
      some (false, { w with conf := some content, stdout := w.stdout ++ str "file is locked\n" })
    else
      match check_scan target_addr (content.length + 1) content item_zero with
      | none => none
      | some true => some (true, { w with
          conf := some content
          stdout := w.stdout ++ cstr target_addr ++ str " is in white list\n" })
      | some false => some (false, { w with
          conf := some content
          stdout := w.stdout ++ cstr target_addr ++ str " is not in white list\n" })

/-- The inner loop of `cmd_rmwl`, which reads the lines of a block: the rest
of the stream, the buffer `item` and the staging stream when it ends (at a
line starting with `}` or at end of file). -/
def rmwl_block (bufsiz : Nat) (argv : List Nat) :
    Nat → List Nat → List Nat → OStream → Option (List Nat × List Nat × OStream)
  | 0, _, _, _ => none
  | fuel + 1, fp, item, out =>
    match fgets item CONFIG_LINE_MAX fp with
    | none => some (fp, item, out)
    | some (item1, fp1) =>
      if item1.headD 0 = 125 then some (fp1, item1, out)
      else
        match strstr item1 (str "address") with
        | some i =>
          if strncasecmp_eq 17 (item1.drop (i + 9)) argv then
            rmwl_block bufsiz argv fuel fp1 item1 out
          else
            rmwl_block bufsiz argv fuel fp1 item1
              (fwrite bufsiz out (str "\x7b\n" ++ cstr item1 ++ str "\x7d\n"))
        | none => rmwl_block bufsiz argv fuel fp1 item1 out

/-- The outer loop of `cmd_rmwl`: the staging stream at end of file. -/
def rmwl_copy (bufsiz : Nat) (argv : List Nat) :
    Nat → List Nat → List Nat → OStream → Option OStream
  | 0, _, _, _ => none
  | fuel + 1, fp, item, out =>
    match fgets item CONFIG_LINE_MAX fp with
    | none => some out
    | some (item1, fp1) =>
      if item1.headD 0 = 123 then
        match rmwl_block bufsiz argv (fp1.length + 1) fp1 item_zero out with
        | none => none
        | some (fp2, _, out2) => rmwl_copy bufsiz argv fuel fp2 item_zero out2
      else rmwl_copy bufsiz argv fuel fp1 item_zero out

/-- The files when `cmd_rmwl` is about to call `rename`. -/
structure AtRename where
  conf : List Nat
  swp : OStream
  deriving DecidableEq

/-- The function `cmd_rmwl(argv)` up to the call of `rename`, for an argument
of 17 characters.  After the label `done` the source flushes and closes a
stream only under `if (!fp_cur)` and `if (!fp_swp)`; both streams are open
here, so neither block runs and the staging stream keeps its buffer.
`none`: the call does not get there (it waits while the staging file exists,
or retries a lock that stays refused). -/
def rmwl_until_rename (bufsiz : Nat) (argv : List Nat) (w : World) : Option AtRename :=
  if w.swp.isSome then none
  else if w.locked then none
  else
    let content := w.conf.getD []
    match rmwl_copy bufsiz argv (content.length + 1) content item_zero ⟨[], []⟩ with
    | none => none
    | some out => some { conf := content, swp := out }

/-- The function `cmd_rmwl(argv)` of a process whose stdio buffers hold
`bufsiz` bytes: `rename` puts the staging file, as it is on disk, in the place
of the primary; the stream on it stays open.  The later call of
`connect_device` does not touch the files. -/
def cmd_rmwl (bufsiz : Nat) (argv : List Nat) (w : World) : Option World :=
  if strlen argv ≠ 17 then some w
  else
    match rmwl_until_rename bufsiz argv w with
    | none => none
    | some r => some { w with conf := some r.swp.disk, swp := none, unflushed := r.swp.buffer }

/-- The scan loop of `cmd_lswl`: what it prints. -/
def lswl_scan : Nat → List Nat → List Nat → List Nat → Option (List Nat)
  | 0, _, _, _ => none
  | fuel + 1, fp, item, out =>
    match fgets item CONFIG_LINE_MAX fp with
    | none => some out
    | some (item1, fp1) =>
      match strstr item1 (str "address") with
      | some i =>
        lswl_scan fuel fp1 item_zero (out ++ (cstr (item1.drop (i + 9))).take 17 ++ [10])
      | none => lswl_scan fuel fp1 item_zero out

/-- The function `cmd_lswl`: after `strncpy(bd_addr, pch+9, 18)` and
`bd_addr[17] = 0` it prints the first 17 bytes of the string at `pch+9` and a
newline. -/
def cmd_lswl (w : World) : Option World :=
  if w.swp.isSome then none
  else if w.locked then none
  else
    let content := w.conf.getD []
    match lswl_scan (content.length + 1) content item_zero w.stdout with
    | none => none
    | some out => some { w with conf := some content, stdout := out }

/-- The function `cmd_clearwl`: `fopen(CONFIG_PATH, "w")` empties the file. -/
def cmd_clearwl (w : World) : Option World :=
  if w.swp.isSome then none
  else some { w with conf := some [] }

/-- The command `addwl` as `main` runs it: the function, then `exit(0)`. -/
def run_addwl (argv : List Nat) (w : World) : Option World :=
  (cmd_addwl argv w).map exit_process

/-- The command `rmwl` as `main` runs it: the function, then `exit(0)`. -/
def run_rmwl (bufsiz : Nat) (argv : List Nat) (w : World) : Option World :=
  (cmd_rmwl bufsiz argv w).map exit_process

/-! ## Whitelist files -/

/-- A hexadecimal digit, either case. -/
def is_hex (b : Nat) : Bool :=
  (48 ≤ b && b ≤ 57) || (65 ≤ b && b ≤ 70) || (97 ≤ b && b ≤ 102)

/-- From position `i` on, every third byte is a colon and the others are
hexadecimal digits. -/
def canonical_from : Nat → List Nat → Bool
  | _, [] => true
  | i, b :: bs => (if i % 3 = 2 then b == 58 else is_hex b) && canonical_from (i + 1) bs

/-- A canonical address: 17 characters, six two-digit hexadecimal octets
separated by colons. -/
def canonical (X : List Nat) : Prop := X.length = 17 ∧ canonical_from 0 X = true

instance (X : List Nat) : Decidable (canonical X) := by
  unfold canonical; infer_instance

/-- Every address of the list is canonical. -/
def all_canonical (L : List (List Nat)) : Prop := ∀ A ∈ L, canonical A

instance (L : List (List Nat)) : Decidable (all_canonical L) := by
  unfold all_canonical; infer_instance

/-- The two addresses are equal when letter case is ignored. -/
def caseeq (A X : List Nat) : Prop := A.map tolower = X.map tolower

instance (A X : List Nat) : Decidable (caseeq A X) := by
  unfold caseeq; infer_instance

/-- The addresses of the list are pairwise different, letter case ignored. -/
def distinct_addrs (L : List (List Nat)) : Prop := L.Pairwise fun A B => ¬ caseeq A B

instance (L : List (List Nat)) : Decidable (distinct_addrs L) := by
  unfold distinct_addrs; infer_instance

/-- The block `add` writes for the address `A`. -/
def wl_block (A : List Nat) : List Nat := str "\x7b\n\taddress=\"" ++ A ++ str "\"\n\x7d\n"

/-- The file made of the blocks of the given addresses, in order. -/
def wl_file (L : List (List Nat)) : List Nat := L.flatMap wl_block

/-- The line of a block that carries the address, without its newline. -/
def addr_line (A : List Nat) : List Nat := str "\taddress=\"" ++ A ++ str "\""

/-- The address list after adding `X`: unchanged when an address equal to `X`
(letter case ignored) is present, else `X` is put at the end. -/
def add_addr (X : List Nat) (L : List (List Nat)) : List (List Nat) :=
  if ∃ A ∈ L, caseeq A X then L else L ++ [X]

/-- The address list without the addresses equal to `X`, letter case ignored. -/
def remove_addr (X : List Nat) (L : List (List Nat)) : List (List Nat) :=
  L.filter fun A => ¬ caseeq A X

/-- The staging stream after the blocks of the given addresses are written to it. -/
def fwrite_blocks (bufsiz : Nat) (out : OStream) (L : List (List Nat)) : OStream :=
  L.foldl (fun o A => fwrite bufsiz o (wl_block A)) out

/-- The address "AA:BB:CC:DD:EE:FF". -/
def addr_AA : List Nat := str "AA:BB:CC:DD:EE:FF"

/-- The address "aa:bb:cc:dd:ee:ff". -/
def addr_aa : List Nat := str "aa:bb:cc:dd:ee:ff"

/-- The address "11:22:33:44:55:66". -/
def addr_11 : List Nat := str "11:22:33:44:55:66"

/-- A world without whitelist file, staging file or lock. -/
def world_empty : World :=
  { conf := none, swp := none, locked := false, unflushed := [], stdout := [] }

/-- A world whose whitelist file holds the blocks of the given addresses. -/
def world_of (L : List (List Nat)) : World :=
  { conf := some (wl_file L), swp := none, locked := false, unflushed := [], stdout := [] }

/-- The function `cmd_addwl` called on each address of the list in turn. -/
def addwl_all : List (List Nat) → World → Option World
  | [], w => some w
  | X :: Xs, w => (cmd_addwl X w).bind (addwl_all Xs)

/-! ## Capacity gate and control loop -/

/-- The function `current_conn_num(dev_id)`: -1 when the socket, the
allocation or the `HCIGETCONNLIST` ioctl fails, else the 16-bit count
`cl->conn_num` the ioctl stored. -/
def current_conn_num (socket_ok malloc_ok ioctl_ok : Bool) (conn_num : Nat) : Int :=
  if socket_ok = false then -1
  else if malloc_ok = false then -1
  else if ioctl_ok = false then -1
  else ((conn_num % 65536 : Nat) : Int)

/-- What one cycle of the loop in `process_6lowpan` calls after the capacity
query. -/
inductive LoopCall where
  | scan_ipsp_device
  | comm_auth_pair
  | connect_device
  | sleep
  deriving DecidableEq

/-- What the environment answers during one cycle of the loop: the outcome of
the capacity query, the result of `scan_ipsp_device` if it is called, and
whether `signal_received == SIGINT` holds at the check. -/
structure CycleEnv where
  socket_ok : Bool
  malloc_ok : Bool
  ioctl_ok : Bool
  conn_num : Nat
  scan_ret : Bool
  sigint : Bool
  deriving DecidableEq

/-- One cycle of the `while (1)` loop of `process_6lowpan`: the calls made, in
order, and whether the loop goes on (`false` for the `break`). -/
def loop_cycle (auth_type : commissioning_auth_t) (e : CycleEnv) : List LoopCall × Bool :=
  let calls : List LoopCall :=
    if current_conn_num e.socket_ok e.malloc_ok e.ioctl_ok e.conn_num < (MAX_BLE_CONN : Int) then
      if e.scan_ret then
        if auth_type ≠ COMMISSIONING_AUTH_NONE then
          [LoopCall.scan_ipsp_device, LoopCall.comm_auth_pair]
        else [LoopCall.scan_ipsp_device, LoopCall.connect_device]
      else [LoopCall.scan_ipsp_device]
    else []
  if e.sigint then (calls, false) else (calls ++ [LoopCall.sleep], true)

/-- The loop of `process_6lowpan` run against the answers of the environment,
one per cycle: the calls of each cycle that is run. -/
def process_loop (auth_type : commissioning_auth_t) : List CycleEnv → List (List LoopCall)
  | [] => []
  | e :: es =>
    (loop_cycle auth_type e).1 ::
      (if (loop_cycle auth_type e).2 then process_loop auth_type es else [])

/-! ## Credentials -/

/-- `isdigit(c)`. -/
def isdigit (c : Nat) : Bool := 48 ≤ c && c ≤ 57

/-- The function `validate_key(key_value)`: -1 when the string has fewer than
`AUTH_KEY_LEN` characters or one of its first `AUTH_KEY_LEN` characters is not
a digit, else 0. -/
def validate_key (key_value : List Nat) : Int :=
  if strlen key_value < AUTH_KEY_LEN then -1
  else if (List.range AUTH_KEY_LEN).all fun index => isdigit (rd key_value index) then 0
  else -1

/-- The globals that hold the stored credentials: `auth_ssid_value` (17
bytes), `auth_ssid_len` and `auth_key_value` (7 bytes). -/
structure AuthStore where
  auth_ssid_value : List Nat
  auth_ssid_len : Nat
  auth_key_value : List Nat
  deriving DecidableEq

/-- The globals at program start (static storage is zeroed). -/
def auth_store_init : AuthStore :=
  { auth_ssid_value := List.replicate 17 0, auth_ssid_len := 0,
    auth_key_value := List.replicate 7 0 }

/-- The function `validate_store_auth_params(ssid_value, key_value)`: the
value returned and the globals it leaves; `none` stands for a NULL pointer.
The identifier is stored, cut to `AUTH_SSID_MAX_LEN` bytes, before the key is
validated. -/
def validate_store_auth_params (ssid_value key_value : Option (List Nat)) (g : AuthStore) :
    Int × AuthStore :=
  match ssid_value, key_value with
  | some ssid, some key =>
    let length := if strlen ssid > AUTH_SSID_MAX_LEN then AUTH_SSID_MAX_LEN else strlen ssid
    let g1 : AuthStore :=
      { g with auth_ssid_value := (memcpy g.auth_ssid_value 0 ssid 0 length).set length 0
               auth_ssid_len := length }
    if validate_key key = -1 then (-1, g1)
    else (0, { g1 with
      auth_key_value := (memcpy g1.auth_key_value 0 key 0 AUTH_KEY_LEN).set AUTH_KEY_LEN 0 })
  | _, _ => (-1, g)

/-! ## scan_ipsp_device -/

/-- The calls `scan_ipsp_device` makes on the radio socket, the parser and the
whitelist.  `scan_enable` is `hci_le_set_scan_enable(dd, 0x01, ..)`,
`scan_disable` is `hci_le_set_scan_enable(dd, 0x00, ..)`. -/
inductive HciCall where
  | set_scan_parameters
  | scan_enable
  | get_filter
  | set_filter
  | poll
  | read
  | parse_ip_service
  | check_whitelist
  | restore_filter
  | scan_disable
  deriving DecidableEq

/-- How the `while (read(..) < 0)` loop ends: a successful read, `EINTR` with
`signal_received == SIGINT`, or an error other than `EAGAIN` and `EINTR`. -/
inductive ReadEnd where
  | ok
  | interrupted
  | failed
  deriving DecidableEq

/-- What the environment answers during one iteration of the scan loop: the
seconds since the start, the value of `poll`, whether `POLLIN` is set, how many
reads fail with `EAGAIN` or `EINTR` and get retried, how the reading ends,
whether the event read is an advertising report, the result of
`parse_ip_service` on it and the result of `check_whitelist` on its address. -/
structure ScanIter where
  running_time : Nat
  poll_ret : Int
  pollin : Bool
  read_retries : Nat
  read_end : ReadEnd
  adv_report : Bool
  parse_ok : Bool
  in_whitelist : Bool
  deriving DecidableEq

/-- What the environment answers outside the loop: the values returned by
`hci_le_set_scan_parameters` and the two `hci_le_set_scan_enable` calls,
whether `getsockopt` and `setsockopt` succeed, and the answers of iteration
`k` of the loop. -/
structure ScanEnv where
  set_parameters_err : Int
  enable_err : Int
  getsockopt_ok : Bool
  setsockopt_ok : Bool
  disable_err : Int
  iter : Nat → ScanIter

/-- One pass through the body of the `while (timeout > 0)` loop, after the
calls made so far: `Sum.inl` when control leaves the loop (a `goto done`, or the
`break` with `scan_ret = true`), with the value of `scan_ret` and the calls
made; `Sum.inr` with the calls made when the loop goes round again.  Without
`POLLIN` nothing is read and the zeroed buffer is not an advertising report;
`check_whitelist` is called only when `use_whitelist` is set. -/
def scan_iteration (use_whitelist : Bool) (timeout : Nat) (it : ScanIter)
    (calls : List HciCall) : (Bool × List HciCall) ⊕ List HciCall :=
  if it.running_time > timeout then Sum.inl (false, calls)
  else if it.poll_ret < 0 then Sum.inl (false, calls ++ [HciCall.poll])
  else if it.poll_ret = 0 then Sum.inl (false, calls ++ [HciCall.poll])
  else if it.pollin = false then Sum.inl (false, calls ++ [HciCall.poll])
  else if it.read_end ≠ ReadEnd.ok then
    Sum.inl (false, calls ++ [HciCall.poll] ++
      List.replicate (it.read_retries + 1) HciCall.read)
  else if it.adv_report = false then
    Sum.inl (false, calls ++ [HciCall.poll] ++
      List.replicate (it.read_retries + 1) HciCall.read)
  else if it.parse_ok = false then
    Sum.inr (calls ++ [HciCall.poll] ++
      List.replicate (it.read_retries + 1) HciCall.read ++ [HciCall.parse_ip_service])
  else if use_whitelist = false then
    Sum.inl (true, calls ++ [HciCall.poll] ++
      List.replicate (it.read_retries + 1) HciCall.read ++ [HciCall.parse_ip_service])
  else if it.in_whitelist = false then
    Sum.inr (calls ++ [HciCall.poll] ++
      List.replicate (it.read_retries + 1) HciCall.read ++
      [HciCall.parse_ip_service, HciCall.check_whitelist])
  else
    Sum.inl (true, calls ++ [HciCall.poll] ++
      List.replicate (it.read_retries + 1) HciCall.read ++
      [HciCall.parse_ip_service, HciCall.check_whitelist])

/-- The `while (timeout > 0)` loop of `scan_ipsp_device` from iteration `k`
on, with the calls made so far: the value of `scan_ret` and the calls made when
control reaches the label `done`; `none` when the bound on the number of
iterations is used up. -/
def scan_loop (use_whitelist : Bool) (timeout : Nat) (iter : Nat → ScanIter) :
    Nat → Nat → List HciCall → Option (Bool × List HciCall)
  | 0, _, _ => none
  | fuel + 1, k, calls =>
    if timeout = 0 then some (false, calls)
    else
      match scan_iteration use_whitelist timeout (iter k) calls with
      | Sum.inl r => some r
      | Sum.inr calls1 => scan_loop use_whitelist timeout iter fuel (k + 1) calls1

/-- The code after the label `done`: the old filter is restored, scanning is
disabled, and a failure of that command turns the result into false. -/
def scan_done (env : ScanEnv) (r : Bool × List HciCall) : Bool × List HciCall :=
  (if env.disable_err < 0 then false else r.1,
    r.2 ++ [HciCall.restore_filter, HciCall.scan_disable])

/-- The function `scan_ipsp_device(dd, timeout, dev_name, dev_addr,
use_whitelist)`: the value returned and the calls made, in order; `none` when
the loop has not ended within `fuel` iterations. -/
def scan_ipsp_device (env : ScanEnv) (timeout : Nat) (use_whitelist : Bool) (fuel : Nat) :
    Option (Bool × List HciCall) :=
  if env.set_parameters_err < 0 then some (false, [HciCall.set_scan_parameters])
  else if env.enable_err < 0 then
    some (false, [HciCall.set_scan_parameters, HciCall.scan_enable])
  else if env.getsockopt_ok = false then
    some (scan_done env
      (false, [HciCall.set_scan_parameters, HciCall.scan_enable, HciCall.get_filter]))
  else if env.setsockopt_ok = false then
    some (scan_done env (false, [HciCall.set_scan_parameters, HciCall.scan_enable,
      HciCall.get_filter, HciCall.set_filter]))
  else
    match scan_loop use_whitelist timeout env.iter fuel 0 [HciCall.set_scan_parameters,
        HciCall.scan_enable, HciCall.get_filter, HciCall.set_filter] with
    | none => none
    | some r => some (scan_done env r)

/-- An environment in which every radio call succeeds, the first event read is
an advertising report that the parser rejects, and the clock then shows 6
seconds. -/
def scan_env_elapsed : ScanEnv :=
  { set_parameters_err := 0, enable_err := 0, getsockopt_ok := true, setsockopt_ok := true,
    disable_err := 0,
    iter := fun k =>
      if k = 0 then
        { running_time := 0, poll_ret := 1, pollin := true, read_retries := 0,
          read_end := ReadEnd.ok, adv_report := true, parse_ok := false, in_whitelist := false }
      else
        { running_time := 6, poll_ret := 0, pollin := false, read_retries := 0,
          read_end := ReadEnd.ok, adv_report := false, parse_ok := false,
          in_whitelist := false } }

/-! ## Whitelist blocks with blanks around the address -/

/-- Every byte is a space or a tab. -/
def is_blank (l : List Nat) : Prop := ∀ b ∈ l, b = 32 ∨ b = 9

instance (l : List Nat) : Decidable (is_blank l) := by
  unfold is_blank; infer_instance

/-- A block whose address line has blanks before and after `address="A"`. -/
structure WsBlock where
  before : List Nat
  addr : List Nat
  after : List Nat
  deriving DecidableEq

/-- The address line of such a block, without its newline. -/
def ws_line (b : WsBlock) : List Nat :=
  b.before ++ str "address=\"" ++ b.addr ++ str "\"" ++ b.after

/-- The text of such a block: `{`, newline, the address line, newline, `}`,
newline. -/
def ws_block (b : WsBlock) : List Nat := str "\x7b\n" ++ ws_line b ++ str "\n\x7d\n"

/-- The file made of the given blocks, in order. -/
def ws_file (bs : List WsBlock) : List Nat := bs.flatMap ws_block

/-- The blocks are of the stated form: blanks around a canonical address. -/
def ws_form (bs : List WsBlock) : Prop :=
  ∀ b ∈ bs, is_blank b.before ∧ is_blank b.after ∧ canonical b.addr

instance (bs : List WsBlock) : Decidable (ws_form bs) := by
  unfold ws_form; infer_instance

/-- Every address line, with its newline, fits one `fgets` of
`CONFIG_LINE_MAX` bytes. -/
def ws_fits (bs : List WsBlock) : Prop := ∀ b ∈ bs, (ws_line b).length + 1 < CONFIG_LINE_MAX

instance (bs : List WsBlock) : Decidable (ws_fits bs) := by
  unfold ws_fits; infer_instance

/-- The blocks whose address differs from `X`, letter case ignored. -/
def ws_keep (X : List Nat) (bs : List WsBlock) : List WsBlock :=
  bs.filter fun b => ¬ caseeq b.addr X

/-- A string of exactly 17 characters. -/
def is_addr17 (X : List Nat) : Prop := X.length = 17 ∧ ∀ b ∈ X, b ≠ 0

instance (X : List Nat) : Decidable (is_addr17 X) := by
  unfold is_addr17; infer_instance

/-- All the bytes `cmd_rmwl` has written to the staging stream when it calls
`rename`. -/
def rmwl_written (bufsiz : Nat) (argv : List Nat) (w : World) : Option (List Nat) :=
  (rmwl_until_rename bufsiz argv w).map fun r => r.swp.disk ++ r.swp.buffer

/-- A world whose whitelist file has the given content. -/
def world_with (content : List Nat) : World :=
  { conf := some content, swp := none, locked := false, unflushed := [], stdout := [] }

/-- The block of "11:22:33:44:55:66" with 249 spaces before the keyword. -/
def long_block : WsBlock := { before := List.replicate 249 32, addr := addr_11, after := [] }

/-! # Theorems -/

/-! ## Lemmas on byte memory -/

theorem rd_lt (m : List Nat) (i : Nat) : rd m i < 256 := by
  unfold rd; omega

theorem rd_cons_zero (a : Nat) (m : List Nat) : rd (a :: m) 0 = a % 256 := by
  simp [rd]

theorem rd_cons_succ (a : Nat) (m : List Nat) (i : Nat) : rd (a :: m) (i + 1) = rd m i := by
  simp [rd]

theorem rd_append_left (a b : List Nat) (i : Nat) (h : i < a.length) :
    rd (a ++ b) i = rd a i := by
  simp [rd, List.getD_eq_getElem?_getD, List.getElem?_append_left h]

theorem rd_of_lt (a : List Nat) (i : Nat) (h : i < a.length) (hb : ∀ b ∈ a, b < 256) :
    rd a i = a[i] := by
  have : a[i] < 256 := hb _ (List.getElem_mem h)
  simp [rd, List.getD_eq_getElem?_getD, List.getElem?_eq_getElem h]
  omega

theorem rd_beyond (a : List Nat) (i : Nat) (h : a.length ≤ i) : rd a i = 0 := by
  simp [rd, List.getD_eq_getElem?_getD, List.getElem?_eq_none h]

theorem put_le16_length (v : Nat) (dst : List Nat) : (put_le16 v dst).length = dst.length := by
  simp [put_le16]

theorem memcpy_length (dst : List Nat) (doff : Nat) (src : List Nat) (soff n : Nat) :
    (memcpy dst doff src soff n).length = dst.length := by
  simp [memcpy]

theorem rd_put_le16_zero (v : Nat) (dst : List Nat) (h : 2 ≤ dst.length) :
    rd (put_le16 v dst) 0 = v % 256 := by
  match dst, h with
  | a :: b :: t, _ => simp [put_le16, rd]

theorem rd_put_le16_one (v : Nat) (dst : List Nat) (h : 2 ≤ dst.length) :
    rd (put_le16 v dst) 1 = v / 256 % 256 := by
  match dst, h with
  | a :: b :: t, _ => simp [put_le16, rd]

theorem rd_memcpy (dst : List Nat) (doff : Nat) (src : List Nat) (soff n i : Nat)
    (h : i < dst.length) :
    rd (memcpy dst doff src soff n) i =
      if doff ≤ i ∧ i < doff + n then rd src (soff + (i - doff)) else rd dst i := by
  unfold memcpy
  simp only [rd, List.getD_eq_getElem?_getD]
  rw [List.getElem?_map, List.getElem?_range h]
  simp only [Option.map_some', Option.getD_some]
  split
  · simp
  · rfl

theorem memcmp_eq_iff (a b : List Nat) (boff n : Nat) :
    memcmp_eq a b boff n = true ↔ ∀ i, i < n → rd a i = rd b (boff + i) := by
  simp [memcmp_eq]

/-! ## Lemmas on the loop body -/

theorem size_sub3 (n L : Nat) (hn : n ≤ 16) (hL : L < 256) :
    n = (L + SIZE_MOD - 3) % SIZE_MOD ↔ L = n + 3 := by
  simp only [SIZE_MOD]
  omega

theorem vendor_val (val S S' : List Nat) (hval : 18 ≤ val.length) (hS : S.length ≤ 16)
    (i : Nat) (hi : i < S.length + 2) :
    rd (memcpy (put_le16 NORDIC_COMPANY_ID val) 2 (S ++ S') 0 S.length) i
      = rd (0x59 :: 0 :: S) i := by
  rw [rd_memcpy _ _ _ _ _ _ (by rw [put_le16_length]; omega)]
  match i, hi with
  | 0, _ =>
    rw [if_neg (by omega), rd_put_le16_zero _ _ (show 2 ≤ val.length by omega)]
    simp [NORDIC_COMPANY_ID, rd]
  | 1, _ =>
    rw [if_neg (by omega), rd_put_le16_one _ _ (show 2 ≤ val.length by omega)]
    simp [NORDIC_COMPANY_ID, rd]
  | k + 2, hk =>
    have hk' : k < S.length := by omega
    simp only [rd_cons_succ]
    rw [if_pos (by omega)]
    simp [rd_append_left _ _ _ hk']

theorem vendor_match_iff (val S S' p rest : List Nat) (t : Nat)
    (hval : 18 ≤ val.length) (hS : S.length ≤ 16) (hSb : ∀ b ∈ S, b < 256)
    (hp : p.length + 1 < 256) (hpb : ∀ b ∈ p, b < 256) :
    (memcmp_eq (memcpy (put_le16 NORDIC_COMPANY_ID val) 2 (S ++ S') 0 S.length)
        ((p.length + 1) :: t :: (p ++ rest)) 2 (S.length + 2) = true ∧
      S.length = (p.length + 1 + SIZE_MOD - 3) % SIZE_MOD) ↔ p = 0x59 :: 0 :: S := by
  rw [size_sub3 _ _ hS hp, memcmp_eq_iff]
  constructor
  · rintro ⟨h1, h2⟩
    have hlen : p.length = S.length + 2 := by omega
    apply List.ext_getElem
    · simp [hlen]
    · intro i hi1 hi2
      have hi : i < S.length + 2 := by omega
      have e := h1 i hi
      rw [vendor_val val S S' hval hS i hi] at e
      have e2 : rd ((p.length + 1) :: t :: (p ++ rest)) (2 + i) = p[i] := by
        rw [show 2 + i = (i + 1) + 1 by omega, rd_cons_succ, rd_cons_succ,
          rd_append_left _ _ _ hi1, rd_of_lt _ _ hi1 hpb]
      rw [e2] at e
      rw [← e]
      have hb : ∀ b ∈ (0x59 :: 0 :: S), b < 256 := by
        intro b hb
        simp only [List.mem_cons] at hb
        rcases hb with rfl | rfl | hb
        · omega
        · omega
        · exact hSb b hb
      exact rd_of_lt _ _ hi2 hb
  · intro h
    subst h
    refine ⟨?_, by simp⟩
    intro i hi
    rw [vendor_val val S S' hval hS i hi]
    rw [show 2 + i = (i + 1) + 1 by omega, rd_cons_succ, rd_cons_succ]
    rw [rd_append_left _ _ _ (by simp; omega)]


theorem field_step_wf (auth : commissioning_auth_t) (wifi : Nat → Option (List Nat))
    (buf_len : Nat) (st : PState) (f : Nat × List Nat) (rest S S' : List Nat)
    (hauth : auth ≠ COMMISSIONING_AUTH_WIFI_CFG)
    (he : st.eir = encode_field f ++ rest) (hf : wf_field f)
    (hv : st.val.length = 256) (hS : S.length ≤ 16) (hSb : ∀ b ∈ S, b < 256)
    (hsv : st.auth_ssid_value = S ++ S') (hsl : st.auth_ssid_len = S.length) :
    ∃ st1, field_step auth wifi buf_len st = some st1 ∧ st1.eir = rest ∧
      st1.offset = st.offset + (encode_field f).length ∧
      st1.iterations = st.iterations + 1 ∧ st1.val.length = 256 ∧
      st1.auth_ssid_value = st.auth_ssid_value ∧ st1.auth_ssid_len = st.auth_ssid_len ∧
      (st.ipsp_service = true → st1.ipsp_service = true) ∧
      ((f.1 = EIR_UUID16_SOME ∨ f.1 = EIR_UUID16_ALL) → f.2 = [0x20, 0x18] →
        st1.ipsp_service = true) ∧
      st1.ssid_correct =
        (st.ssid_correct || decide (f.1 = EIR_MANUF_SPECIFIC_DATA ∧ f.2 = 0x59 :: 0 :: S)) := by
  obtain ⟨t, p⟩ := f
  obtain ⟨ht, hp, hpb⟩ := hf
  simp only at ht hp hpb
  simp only [encode_field, List.cons_append] at he
  have h0 : rd st.eir 0 = p.length + 1 := by
    rw [he, rd_cons_zero]; omega
  have h1 : rd st.eir 1 = t := by
    rw [he, rd_cons_succ, rd_cons_zero]; omega
  have hd : st.eir.drop (p.length + 1 + 1) = rest := by
    rw [he]; simp
  unfold field_step
  simp only [h0, h1]
  by_cases hu : t = EIR_UUID16_SOME ∨ t = EIR_UUID16_ALL
  · rw [if_pos hu]
    have hnv : ¬ (t = EIR_MANUF_SPECIFIC_DATA) := by
      simp only [EIR_UUID16_SOME, EIR_UUID16_ALL, EIR_MANUF_SPECIFIC_DATA] at hu ⊢
      omega
    refine ⟨_, rfl, hd, ?_, rfl, ?_, rfl, rfl, ?_, ?_, ?_⟩
    · show st.offset + (p.length + 1) + 1 = st.offset + (encode_field (t, p)).length
      simp only [encode_field, List.length_cons]
      omega
    · show (put_le16 IPSP_UUID st.val).length = 256
      rw [put_le16_length, hv]
    · intro h
      show (if _ then true else st.ipsp_service) = true
      rw [h]; simp
    · intro _ hp2
      have hp3 : p = [0x20, 0x18] := hp2
      subst hp3
      show (if memcmp_eq (put_le16 IPSP_UUID st.val) st.eir 2
            ((([0x20, 0x18] : List Nat).length + 1) / 2) = true
          then true else st.ipsp_service) = true
      rw [if_pos]
      rw [memcmp_eq_iff]
      intro i hi
      have hi0 : i = 0 := by simp at hi; omega
      subst hi0
      rw [rd_put_le16_zero _ _ (by omega), he]
      simp [rd, IPSP_UUID]
    · show st.ssid_correct = (st.ssid_correct || decide (t = EIR_MANUF_SPECIFIC_DATA ∧ p = 0x59 :: 0 :: S))
      simp [hnv]
  · rw [if_neg hu]
    by_cases hn : t = EIR_NAME_SHORT ∨ t = EIR_NAME_COMPLETE
    · rw [if_pos hn]
      have hnv : ¬ (t = EIR_MANUF_SPECIFIC_DATA) := by
        simp only [EIR_NAME_SHORT, EIR_NAME_COMPLETE, EIR_MANUF_SPECIFIC_DATA] at hn ⊢
        omega
      have hoff : st.offset + (p.length + 1) + 1 = st.offset + (encode_field (t, p)).length := by
        simp only [encode_field, List.length_cons]
        omega
      split
      · exact ⟨_, rfl, hd, hoff, rfl, hv, rfl, rfl, fun h => h, fun h => absurd h hu,
          by simp [hnv]⟩
      · exact ⟨_, rfl, hd, hoff, rfl, hv, rfl, rfl, fun h => h, fun h => absurd h hu,
          by simp [hnv]⟩
    · rw [if_neg hn]
      have hoff : st.offset + (p.length + 1) + 1 = st.offset + (encode_field (t, p)).length := by
        simp only [encode_field, List.length_cons]
        omega
      by_cases hm : t = EIR_MANUF_SPECIFIC_DATA
      · rw [if_pos hm, if_neg hauth]
        refine ⟨_, rfl, hd, hoff, rfl, ?_, rfl, rfl, fun h => h, fun h => absurd h hu, ?_⟩
        · show (memcpy (put_le16 NORDIC_COMPANY_ID st.val) 2 st.auth_ssid_value 0 st.auth_ssid_len).length = 256
          rw [memcpy_length, put_le16_length, hv]
        · show (if memcmp_eq (memcpy (put_le16 NORDIC_COMPANY_ID st.val) 2 st.auth_ssid_value 0
                  st.auth_ssid_len) st.eir 2 (st.auth_ssid_len + 2) = true ∧
                st.auth_ssid_len = (p.length + 1 + SIZE_MOD - 3) % SIZE_MOD
              then true else st.ssid_correct) =
            (st.ssid_correct || decide (t = EIR_MANUF_SPECIFIC_DATA ∧ p = 0x59 :: 0 :: S))
          rw [hsv, hsl, he]
          have hvm := vendor_match_iff st.val S S' p rest t (by omega) hS hSb hp hpb
          by_cases hpp : p = 0x59 :: 0 :: S
          · rw [if_pos (hvm.mpr hpp)]
            simp [hpp, hm]
          · rw [if_neg (fun h => hpp (hvm.mp h))]
            simp [hpp]
      · rw [if_neg hm]
        exact ⟨_, rfl, hd, hoff, rfl, hv, rfl, rfl, fun h => h, fun h => absurd h hu,
          by simp [hm]⟩

theorem field_step_offset (auth : commissioning_auth_t) (wifi : Nat → Option (List Nat))
    (buf_len : Nat) (st st1 : PState) (h : field_step auth wifi buf_len st = some st1) :
    st1.offset = st.offset + rd st.eir 0 + 1 := by
  unfold field_step at h
  simp only at h
  split at h
  · cases h; rfl
  · split at h
    · split at h <;> (cases h; rfl)
    · split at h
      · split at h
        · cases h
        · rename_i st2 hc
          cases h
          split at hc
          · split at hc
            · cases hc
            · cases hc; rfl
          · cases hc; rfl
      · cases h; rfl

/-! ## Lemmas on the loop -/

theorem parse_loop_total (auth : commissioning_auth_t) (wifi : Nat → Option (List Nat))
    (eir_len buf_len : Nat) :
    ∀ (fuel : Nat) (st : PState), eir_len - st.offset < fuel →
      ∃ r, parse_loop auth wifi eir_len buf_len fuel st = some r := by
  intro fuel
  induction fuel with
  | zero => intro st h; omega
  | succ n ih =>
    intro st h
    unfold parse_loop
    by_cases hlt : st.offset < eir_len
    · rw [if_pos hlt]
      cases hfs : field_step auth wifi buf_len st with
      | none => exact ⟨_, rfl⟩
      | some st1 =>
        have ho := field_step_offset auth wifi buf_len st st1 hfs
        exact ih st1 (by omega)
    · rw [if_neg hlt]
      exact ⟨_, rfl⟩

theorem reach_offset (auth : commissioning_auth_t) (wifi : Nat → Option (List Nat))
    (eir_len buf_len : Nat) :
    ∀ (k : Nat) (st0 st : PState), reach auth wifi eir_len buf_len k st0 = some st →
      st0.offset + k ≤ st.offset := by
  intro k
  induction k with
  | zero => intro st0 st h; simp only [reach, Option.some.injEq] at h; subst h; omega
  | succ n ih =>
    intro st0 st h
    unfold reach at h
    split at h
    · split at h
      · cases h
      · rename_i st1 hfs
        have ho := field_step_offset auth wifi buf_len st0 st1 hfs
        have := ih st1 st h
        omega
    · cases h

theorem parse_loop_reach (auth : commissioning_auth_t) (wifi : Nat → Option (List Nat))
    (eir_len buf_len : Nat) :
    ∀ (k fuel : Nat) (st0 st : PState), reach auth wifi eir_len buf_len k st0 = some st →
      parse_loop auth wifi eir_len buf_len (fuel + k) st0 =
        parse_loop auth wifi eir_len buf_len fuel st := by
  intro k
  induction k with
  | zero => intro fuel st0 st h; simp only [reach, Option.some.injEq] at h; subst h; rfl
  | succ n ih =>
    intro fuel st0 st h
    unfold reach at h
    split at h
    · rename_i hlt
      split at h
      · cases h
      · rename_i st1 hfs
        rw [show fuel + (n + 1) = (fuel + n) + 1 by omega]
        conv => lhs; unfold parse_loop
        simp only [if_pos hlt, hfs]
        exact ih fuel st1 st h
    · cases h

theorem parse_loop_last (auth : commissioning_auth_t) (wifi : Nat → Option (List Nat))
    (eir_len buf_len fuel : Nat) (st : PState) (h1 : st.offset < eir_len)
    (h2 : eir_len ≤ st.offset + rd st.eir 0 + 1) :
    parse_loop auth wifi eir_len buf_len (fuel + 2) st = some (last_field auth wifi buf_len st) := by
  unfold parse_loop last_field
  rw [if_pos h1]
  cases hfs : field_step auth wifi buf_len st with
  | none => rfl
  | some st1 =>
    have ho := field_step_offset auth wifi buf_len st st1 hfs
    simp only
    unfold parse_loop
    rw [if_neg (by omega)]

theorem parse_loop_wf (auth : commissioning_auth_t) (wifi : Nat → Option (List Nat))
    (eir_len buf_len : Nat) (S S' : List Nat)
    (hauth : auth ≠ COMMISSIONING_AUTH_WIFI_CFG) (hS : S.length ≤ 16) (hSb : is_bytes S) :
    ∀ (fs : List (Nat × List Nat)) (st : PState) (fuel : Nat),
      st.eir = encode fs → wf_adv fs → st.val.length = 256 →
      st.auth_ssid_value = S ++ S' → st.auth_ssid_len = S.length →
      fs.length < fuel → eir_len = st.offset + (encode fs).length →
      ∃ stf, parse_loop auth wifi eir_len buf_len fuel st = some (finish auth stf) ∧
        stf.iterations = st.iterations + fs.length ∧
        (st.ipsp_service = true → stf.ipsp_service = true) ∧
        ((∃ f ∈ fs, is_ipsp_field f) → stf.ipsp_service = true) ∧
        stf.ssid_correct = (st.ssid_correct || decide (∃ f ∈ fs, is_ssid_field S f)) := by
  intro fs
  induction fs with
  | nil =>
    intro st fuel he _ _ _ _ hfuel hlen
    match fuel, hfuel with
    | n + 1, _ =>
      refine ⟨st, ?_, by simp, fun h => h, by simp, by simp⟩
      unfold parse_loop
      rw [if_neg (by simp [encode] at hlen; omega)]
  | cons f fs ih =>
    intro st fuel he hwf hv hsv hsl hfuel hlen
    match fuel, hfuel with
    | n + 1, hn =>
      have he' : st.eir = encode_field f ++ encode fs := by
        rw [he]; simp [encode]
      obtain ⟨st1, hfs, e1, e2, e3, e4, e5, e6, e7, e8, e9⟩ :=
        field_step_wf auth wifi buf_len st f (encode fs) S S' hauth he'
          (hwf f (List.mem_cons_self _ _)) hv hS hSb hsv hsl
      have hlen2 : (encode (f :: fs)).length = (encode_field f).length + (encode fs).length := by
        simp [encode]
      have hpos : 2 ≤ (encode_field f).length := by simp [encode_field]
      obtain ⟨stf, g1, g2, g3, g4, g5⟩ := ih st1 n e1
        (fun g hg => hwf g (List.mem_cons_of_mem _ hg)) e4 (e5.trans hsv) (e6.trans hsl)
        (by simp at hn; omega) (by omega)
      refine ⟨stf, ?_, ?_, ?_, ?_, ?_⟩
      · unfold parse_loop
        rw [if_pos (by omega)]
        simp only [hfs]
        exact g1
      · simp only [List.length_cons]; omega
      · exact fun h => g3 (e7 h)
      · rintro ⟨g, hg, hgi⟩
        rcases List.mem_cons.mp hg with rfl | hg'
        · exact g3 (e8 hgi.1 hgi.2)
        · exact g4 ⟨g, hg', hgi⟩
      · rw [g5, e9]
        have hiff : is_ssid_field S f ↔ (f.1 = EIR_MANUF_SPECIFIC_DATA ∧ f.2 = 0x59 :: 0 :: S) := by
          unfold is_ssid_field
          constructor
          · rintro ⟨a, _, c⟩; exact ⟨a, c⟩
          · rintro ⟨a, c⟩; exact ⟨a, by rw [c]; simp, c⟩
        by_cases hf : is_ssid_field S f
        · have : ∃ g ∈ f :: fs, is_ssid_field S g := ⟨f, List.mem_cons_self _ _, hf⟩
          rw [decide_eq_true this, decide_eq_true (hiff.mp hf)]
          simp
        · have hf' : ¬ (f.1 = EIR_MANUF_SPECIFIC_DATA ∧ f.2 = 0x59 :: 0 :: S) := fun h => hf (hiff.mpr h)
          by_cases hr : ∃ g ∈ fs, is_ssid_field S g
          · have : ∃ g ∈ f :: fs, is_ssid_field S g := by
              obtain ⟨g, hg, hgi⟩ := hr
              exact ⟨g, List.mem_cons_of_mem _ hg, hgi⟩
            rw [decide_eq_true this, decide_eq_true hr]
            simp
          · have : ¬ ∃ g ∈ f :: fs, is_ssid_field S g := by
              rintro ⟨g, hg, hgi⟩
              rcases List.mem_cons.mp hg with rfl | hg'
              · exact hf hgi
              · exact hr ⟨g, hg', hgi⟩
            simp only [decide_eq_false this, decide_eq_false hr, decide_eq_false hf']
            simp

theorem length_le_encode (fs : List (Nat × List Nat)) : fs.length ≤ (encode fs).length := by
  induction fs with
  | nil => simp
  | cons f fs ih =>
    have : (encode (f :: fs)).length = (encode_field f).length + (encode fs).length := by
      simp [encode]
    have : 2 ≤ (encode_field f).length := by simp [encode_field]
    simp only [List.length_cons]
    omega

theorem parse_ip_service_wf (auth : commissioning_auth_t) (wifi : Nat → Option (List Nat))
    (S pad : List Nat) (fs : List (Nat × List Nat)) (buf : List Nat) (buf_len : Nat)
    (hauth : auth ≠ COMMISSIONING_AUTH_WIFI_CFG) (hS : S.length ≤ 16) (hSb : is_bytes S)
    (hwf : wf_adv fs) :
    ∃ stf, parse_ip_service auth wifi (S ++ pad) S.length (encode fs) (encode fs).length
          buf buf_len = some (finish auth stf) ∧
      stf.iterations = fs.length ∧
      (has_ipsp_field fs → stf.ipsp_service = true) ∧
      stf.ssid_correct = decide (has_ssid_field S fs) := by
  have hle := length_le_encode fs
  obtain ⟨stf, h1, h2, _, h4, h5⟩ :=
    parse_loop_wf auth wifi (encode fs).length buf_len S pad hauth hS hSb fs
      (parse_init (S ++ pad) S.length (encode fs) buf) ((encode fs).length + 1)
      rfl hwf (List.length_replicate _ _) rfl rfl (by omega) (Nat.zero_add _).symm
  refine ⟨stf, h1, ?_, h4, ?_⟩
  · rw [h2]; exact Nat.zero_add _
  · rw [h5]; exact Bool.false_or _

/-! ## Claims on the advertising parser -/

/-- C1, as stated, fails: the advertisement `[0x05, 0x03, 0x20, 0x18]` with
`eir_len = 4` in mode None has, at offset 0, a field whose length byte 5 gives
`0 + 5 + 1 > 4`, and `parse_ip_service` returns true on it. -/
theorem overlong_field_accepted :
    rd [0x05, 0x03, 0x20, 0x18] 0 = 5 ∧ 4 < 0 + 5 + 1 ∧
    (parse_ip_service COMMISSIONING_AUTH_NONE (fun _ => none) (List.replicate 17 0) 0
      [0x05, 0x03, 0x20, 0x18] 4 (List.replicate 30 0) 29).map PResult.ret = some true := by
  decide

/-- C1, amended: `parse_ip_service` has no check of a length byte against
`eir_len`.  When the loop reaches, at offset `o < eir_len`, a field whose length
byte `L` gives `o + L + 1 > eir_len`, the loop body handles it like any other
field, it is the last field handled, and the function returns what the loop
body and the final `return` give from there (true when `ipsp_service` and
`ssid_correct || auth_type == NONE` hold after it), for every buffer, declared
length and authentication mode. -/
theorem overlong_field_is_last (auth : commissioning_auth_t) (wifi : Nat → Option (List Nat))
    (auth_ssid_value : List Nat) (auth_ssid_len : Nat) (eir : List Nat) (eir_len : Nat)
    (buf : List Nat) (buf_len k : Nat) (st : PState)
    (hreach : reach auth wifi eir_len buf_len k
      (parse_init auth_ssid_value auth_ssid_len eir buf) = some st)
    (ho : st.offset < eir_len) (hL : eir_len < st.offset + rd st.eir 0 + 1) :
    parse_ip_service auth wifi auth_ssid_value auth_ssid_len eir eir_len buf buf_len =
      some (last_field auth wifi buf_len st) := by
  have hk := reach_offset auth wifi eir_len buf_len k _ st hreach
  simp only [parse_init] at hk
  unfold parse_ip_service
  rw [show eir_len + 1 = (eir_len - 1 - k + 2) + k by omega,
    parse_loop_reach auth wifi eir_len buf_len k _ _ st hreach]
  exact parse_loop_last auth wifi eir_len buf_len _ st ho (by omega)

/-- C1, amended, at the advertisement `[0x05, 0x03, 0x20, 0x18]` with
`eir_len = 4` in mode None: the first field is reached after 0 iterations, it
is the last one handled, and the value returned is true. -/
theorem overlong_field_is_last_witness :
    reach COMMISSIONING_AUTH_NONE (fun _ => none) 4 29 0
        (parse_init (List.replicate 17 0) 0 [0x05, 0x03, 0x20, 0x18] (List.replicate 30 0)) =
      some (parse_init (List.replicate 17 0) 0 [0x05, 0x03, 0x20, 0x18] (List.replicate 30 0)) ∧
    parse_ip_service COMMISSIONING_AUTH_NONE (fun _ => none) (List.replicate 17 0) 0
        [0x05, 0x03, 0x20, 0x18] 4 (List.replicate 30 0) 29 =
      some (last_field COMMISSIONING_AUTH_NONE (fun _ => none) 29
        (parse_init (List.replicate 17 0) 0 [0x05, 0x03, 0x20, 0x18] (List.replicate 30 0))) ∧
    (last_field COMMISSIONING_AUTH_NONE (fun _ => none) 29
        (parse_init (List.replicate 17 0) 0 [0x05, 0x03, 0x20, 0x18] (List.replicate 30 0))).ret
      = true :=
  ⟨rfl, overlong_field_is_last COMMISSIONING_AUTH_NONE (fun _ => none) (List.replicate 17 0) 0
      [0x05, 0x03, 0x20, 0x18] 4 (List.replicate 30 0) 29 0 _ rfl (by decide) (by decide),
    by decide⟩

/-- C2, code defect: on the well-formed advertisement made of the single
vendor field `[0x05, 0xFF, 0x59, 0x00, 'O', 'p']` (`eir_len = 6`), in mode
Manual with stored identifier "OpenWRT", the vendor `memcmp` of
`auth_ssid_len + 2 = 9` bytes reads the indices 2..10: the indices 6..10 are
not below `eir_len`.  The loop still ends after one iteration. -/
theorem vendor_compare_reads_past_eir_len :
    wf_adv [(0xFF, [0x59, 0x00, 0x4F, 0x70])] ∧
    encode [(0xFF, [0x59, 0x00, 0x4F, 0x70])] = [0x05, 0xFF, 0x59, 0x00, 0x4F, 0x70] ∧
    (parse_ip_service COMMISSIONING_AUTH_MANUAL (fun _ => none) (ssid_OpenWRT ++ [0]) 7
      [0x05, 0xFF, 0x59, 0x00, 0x4F, 0x70] 6 (List.replicate 30 0) 29).map
        (fun r => (r.reads, r.iterations)) = some ([0, 1, 2, 3, 4, 5, 6, 7, 8, 9, 10], 1) := by
  decide

/-- C3, code defect: in mode None the advertisement `[0x03, 0x03, 0x20, 0x19]`,
whose only UUID is 0x1920, and the advertisement `[0x01, 0x03]`, whose UUID
field has an empty payload, are both reported as supporting the capability:
the `memcmp` compares `field_len / 2` bytes, that is 1 byte and 0 bytes. -/
theorem uuid_compare_accepts_other_uuid :
    (parse_ip_service COMMISSIONING_AUTH_NONE (fun _ => none) (List.replicate 17 0) 0
      [0x03, 0x03, 0x20, 0x19] 4 (List.replicate 30 0) 29).map PResult.ret = some true ∧
    (parse_ip_service COMMISSIONING_AUTH_NONE (fun _ => none) (List.replicate 17 0) 0
      [0x01, 0x03] 2 (List.replicate 30 0) 29).map PResult.ret = some true := by
  decide

/-- C4: in mode Manual with stored identifier `S` (at most 16 bytes), on a
well-formed advertisement whose first field is the UUID field
`[0x03, 0x03, 0x20, 0x18]`, `parse_ip_service` returns true exactly when some
vendor-specific field has length byte `|S| + 3` and payload `0x59 0x00`
followed by exactly the bytes of `S`. -/
theorem manual_auth_iff_ssid_field (wifi : Nat → Option (List Nat)) (S pad : List Nat)
    (fs : List (Nat × List Nat)) (buf : List Nat) (buf_len : Nat)
    (hS : S.length ≤ 16) (hSb : is_bytes S) (hwf : wf_adv fs) :
    (parse_ip_service COMMISSIONING_AUTH_MANUAL wifi (S ++ pad) S.length
      (encode ((EIR_UUID16_ALL, [0x20, 0x18]) :: fs))
      (encode ((EIR_UUID16_ALL, [0x20, 0x18]) :: fs)).length buf buf_len).map PResult.ret =
      some (decide (has_ssid_field S fs)) := by
  have hwf2 : wf_adv ((EIR_UUID16_ALL, [0x20, 0x18]) :: fs) := by
    intro f hf
    rcases List.mem_cons.mp hf with rfl | hf'
    · decide
    · exact hwf f hf'
  obtain ⟨stf, h1, _, h3, h4⟩ := parse_ip_service_wf COMMISSIONING_AUTH_MANUAL wifi S pad
    ((EIR_UUID16_ALL, [0x20, 0x18]) :: fs) buf buf_len (by decide) hS hSb hwf2
  have hip : stf.ipsp_service = true :=
    h3 ⟨_, List.mem_cons_self _ _, by decide⟩
  have hss : has_ssid_field S ((EIR_UUID16_ALL, [0x20, 0x18]) :: fs) ↔ has_ssid_field S fs := by
    unfold has_ssid_field
    constructor
    · rintro ⟨f, hf, hfi⟩
      rcases List.mem_cons.mp hf with rfl | hf'
      · exact absurd hfi.1 (by decide)
      · exact ⟨f, hf', hfi⟩
    · rintro ⟨f, hf, hfi⟩
      exact ⟨f, List.mem_cons_of_mem _ hf, hfi⟩
  rw [h1]
  simp only [Option.map_some', finish, hip, h4, Option.some.injEq]
  simp [hss]

/-- C4 at the stored identifier "OpenWRT": the vendor field that encodes
"OpenWRT" is accepted, the one that encodes "otherlan" is rejected. -/
theorem manual_auth_iff_ssid_field_witness :
    is_bytes ssid_OpenWRT ∧
    wf_adv [(EIR_MANUF_SPECIFIC_DATA, 0x59 :: 0x00 :: ssid_OpenWRT)] ∧
    wf_adv [(EIR_MANUF_SPECIFIC_DATA, 0x59 :: 0x00 :: ssid_otherlan)] ∧
    (parse_ip_service COMMISSIONING_AUTH_MANUAL (fun _ => none) (ssid_OpenWRT ++ [0]) 7
      [0x03, 0x03, 0x20, 0x18, 0x0A, 0xFF, 0x59, 0x00, 79, 112, 101, 110, 87, 82, 84] 15
      (List.replicate 30 0) 29).map PResult.ret = some true ∧
    (parse_ip_service COMMISSIONING_AUTH_MANUAL (fun _ => none) (ssid_OpenWRT ++ [0]) 7
      [0x03, 0x03, 0x20, 0x18, 0x0B, 0xFF, 0x59, 0x00, 111, 116, 104, 101, 114, 108, 97, 110] 16
      (List.replicate 30 0) 29).map PResult.ret = some false :=
  ⟨by decide, by decide, by decide,
    manual_auth_iff_ssid_field (fun _ => none) ssid_OpenWRT [0]
      [(EIR_MANUF_SPECIFIC_DATA, 0x59 :: 0x00 :: ssid_OpenWRT)] (List.replicate 30 0) 29
      (by decide) (by decide) (by decide),
    manual_auth_iff_ssid_field (fun _ => none) ssid_OpenWRT [0]
      [(EIR_MANUF_SPECIFIC_DATA, 0x59 :: 0x00 :: ssid_otherlan)] (List.replicate 30 0) 29
      (by decide) (by decide) (by decide)⟩

/-- C5: in mode None, on every well-formed advertisement that has a 16-bit
UUID field carrying exactly the target UUID 0x1820, `parse_ip_service` returns
true, whatever the other fields (names, vendor-specific data) and whatever the
stored identifier. -/
theorem capability_suffices_in_mode_none (wifi : Nat → Option (List Nat)) (S pad : List Nat)
    (fs : List (Nat × List Nat)) (buf : List Nat) (buf_len : Nat)
    (hS : S.length ≤ 16) (hSb : is_bytes S) (hwf : wf_adv fs) (hu : has_ipsp_field fs) :
    (parse_ip_service COMMISSIONING_AUTH_NONE wifi (S ++ pad) S.length
      (encode fs) (encode fs).length buf buf_len).map PResult.ret = some true := by
  obtain ⟨stf, h1, _, h3, _⟩ := parse_ip_service_wf COMMISSIONING_AUTH_NONE wifi S pad
    fs buf buf_len (by decide) hS hSb hwf
  rw [h1]
  simp [finish, h3 hu]

/-- C5 at the advertisement made of the UUID field `[0x03, 0x03, 0x20, 0x18]`
and the complete name "sensor-7", without vendor-specific field. -/
theorem capability_suffices_in_mode_none_witness :
    wf_adv [(EIR_UUID16_ALL, [0x20, 0x18]), (EIR_NAME_COMPLETE, name_sensor7)] ∧
    has_ipsp_field [(EIR_UUID16_ALL, [0x20, 0x18]), (EIR_NAME_COMPLETE, name_sensor7)] ∧
    (parse_ip_service COMMISSIONING_AUTH_NONE (fun _ => none) (List.replicate 17 0) 0
      [0x03, 0x03, 0x20, 0x18, 0x09, 0x09, 115, 101, 110, 115, 111, 114, 45, 55] 14
      (List.replicate 30 0) 29).map PResult.ret = some true :=
  ⟨by decide, by decide,
    capability_suffices_in_mode_none (fun _ => none) [] (List.replicate 17 0)
      [(EIR_UUID16_ALL, [0x20, 0x18]), (EIR_NAME_COMPLETE, name_sensor7)]
      (List.replicate 30 0) 29 (by decide) (by decide) (by decide) (by decide)⟩

/-! ## Lemmas on C strings and stdio -/

theorem cstr_append_nul (l r : List Nat) (h : ∀ b ∈ l, b ≠ 0) : cstr (l ++ 0 :: r) = l := by
  unfold cstr
  induction l with
  | nil => simp
  | cons a l ih =>
    have ha : a ≠ 0 := h a (List.mem_cons_self _ _)
    simp only [List.cons_append, List.takeWhile_cons, ne_eq, ha, not_false_eq_true,
      decide_True, if_true]
    rw [ih (fun b hb => h b (List.mem_cons_of_mem _ hb))]

theorem cstr_of_no_nul (l : List Nat) (h : ∀ b ∈ l, b ≠ 0) : cstr l = l := by
  unfold cstr
  rw [List.takeWhile_eq_self_iff]
  intro b hb
  simpa using h b hb

theorem tolower_eq_zero (b : Nat) : tolower b = 0 ↔ b = 0 := by
  unfold tolower
  split <;> omega

theorem fgets_take_line (l rest : List Nat) (h : ∀ b ∈ l, b ≠ 10) :
    ∀ n, l.length < n → fgets_take n (l ++ 10 :: rest) = l ++ [10] := by
  induction l with
  | nil =>
    intro n hn
    match n, hn with
    | k + 1, _ => simp [fgets_take]
  | cons a l ih =>
    intro n hn
    match n, hn with
    | k + 1, hk =>
      have ha : a ≠ 10 := h a (List.mem_cons_self _ _)
      have e := ih (fun b hb => h b (List.mem_cons_of_mem _ hb)) k (by simpa using hk)
      show fgets_take (k + 1) (a :: (l ++ 10 :: rest)) = a :: (l ++ [10])
      simp only [fgets_take, ha, if_false, e]

theorem fgets_take_eof (l : List Nat) (h : ∀ b ∈ l, b ≠ 10) :
    ∀ n, l.length ≤ n → fgets_take n l = l := by
  induction l with
  | nil =>
    intro n _
    cases n <;> rfl
  | cons a l ih =>
    intro n hn
    match n, hn with
    | k + 1, hk =>
      have ha : a ≠ 10 := h a (List.mem_cons_self _ _)
      simp only [fgets_take, ha, if_false]
      rw [ih (fun b hb => h b (List.mem_cons_of_mem _ hb)) k (by simpa using hk)]

theorem fgets_line (item l rest : List Nat) (h : ∀ b ∈ l, b ≠ 10) (hlen : l.length < 255) :
    fgets item CONFIG_LINE_MAX (l ++ 10 :: rest) =
      some (l ++ 10 :: 0 :: item.drop (l.length + 2), rest) := by
  unfold fgets
  rw [if_neg (by simp)]
  simp only [CONFIG_LINE_MAX]
  rw [fgets_take_line l rest h 255 hlen]
  simp

theorem fgets_last (item l : List Nat) (h : ∀ b ∈ l, b ≠ 10) (hlen : l.length ≤ 255)
    (hne : l ≠ []) :
    fgets item CONFIG_LINE_MAX l = some (l ++ 0 :: item.drop (l.length + 1), []) := by
  unfold fgets
  rw [if_neg hne]
  simp only [CONFIG_LINE_MAX]
  rw [fgets_take_eof l h 255 hlen]
  simp

theorem strncasecmp_eq_full :
    ∀ (n : Nat) (A X t u : List Nat), A.length = n → X.length = n → (∀ b ∈ A, b ≠ 0) →
      strncasecmp_eq n (A ++ t) (X ++ u) = decide (caseeq A X) := by
  intro n
  induction n with
  | zero =>
    intro A X t u hA hX _
    have : A = [] := List.length_eq_zero.mp hA
    have : X = [] := List.length_eq_zero.mp hX
    subst_vars
    simp [strncasecmp_eq, caseeq]
  | succ n ih =>
    intro A X t u hA hX h0
    match A, X, hA, hX with
    | a :: A, x :: X, hA, hX =>
      have ha : a ≠ 0 := h0 a (List.mem_cons_self _ _)
      simp only [List.cons_append, strncasecmp_eq, List.headD_cons, List.tail_cons, ha, if_false]
      by_cases hax : tolower a = tolower x
      · simp only [hax, ne_eq, not_true_eq_false, if_false]
        rw [ih A X t u (by simpa using hA) (by simpa using hX)
          (fun b hb => h0 b (List.mem_cons_of_mem _ hb))]
        simp [caseeq, hax]
      · simp [caseeq, hax]

theorem strncasecmp_eq_short :
    ∀ (n : Nat) (B X t : List Nat), B.length < n → n ≤ X.length → (∀ b ∈ X, b ≠ 0) →
      strncasecmp_eq n (B ++ 0 :: t) X = false := by
  intro n
  induction n with
  | zero => intro B X t h; omega
  | succ n ih =>
    intro B X t hB hX h0
    match X, hX with
    | x :: X, hX =>
      have hx : x ≠ 0 := h0 x (List.mem_cons_self _ _)
      match B with
      | [] =>
        have : tolower 0 ≠ tolower x := by
          intro h
          have := (tolower_eq_zero x).mp h.symm
          exact hx this
        simp [strncasecmp_eq, this]
      | b :: B =>
        simp only [List.cons_append, strncasecmp_eq, List.headD_cons, List.tail_cons]
        split
        · rfl
        · split
          · rename_i h1 h2
            exfalso
            subst h2
            have : tolower 0 = tolower x := by simpa using h1
            exact hx ((tolower_eq_zero x).mp this.symm)
          · exact ih B X t (by simpa using hB) (by simpa using hX)
              (fun b hb => h0 b (List.mem_cons_of_mem _ hb))

theorem canonical_from_bytes :
    ∀ (X : List Nat) (i : Nat), canonical_from i X = true →
      ∀ b ∈ X, b ≠ 0 ∧ b ≠ 10 ∧ b ≠ 34 ∧ b < 256 := by
  intro X
  induction X with
  | nil => intro i _ b hb; cases hb
  | cons a X ih =>
    intro i h b hb
    simp only [canonical_from, Bool.and_eq_true] at h
    rcases List.mem_cons.mp hb with rfl | hb'
    · have h1 := h.1
      split at h1
      · simp at h1; omega
      · simp [is_hex] at h1; omega
    · exact ih (i + 1) h.2 b hb'

theorem canonical_length (X : List Nat) (h : canonical X) : X.length = 17 := h.1

theorem canonical_bytes (X : List Nat) (h : canonical X) :
    ∀ b ∈ X, b ≠ 0 ∧ b ≠ 10 ∧ b ≠ 34 ∧ b < 256 :=
  canonical_from_bytes X 0 h.2

theorem canonical_no_nul (X : List Nat) (h : canonical X) : ∀ b ∈ X, b ≠ 0 :=
  fun b hb => (canonical_bytes X h b hb).1

theorem canonical_no_nl (X : List Nat) (h : canonical X) : ∀ b ∈ X, b ≠ 10 :=
  fun b hb => (canonical_bytes X h b hb).2.1

theorem strlen_canonical (X : List Nat) (h : canonical X) : strlen X = 17 := by
  unfold strlen
  rw [cstr_of_no_nul X (canonical_no_nul X h), h.1]



theorem wl_block_eq (A rest : List Nat) :
    wl_block A ++ rest = 123 :: 10 :: (addr_line A ++ 10 :: 125 :: 10 :: rest) := by
  simp [wl_block, addr_line, str]

theorem addr_line_eq (A : List Nat) :
    addr_line A = 9 :: 97 :: 100 :: 100 :: 114 :: 101 :: 115 :: 115 :: 61 :: 34 :: (A ++ [34]) := by
  simp [addr_line, str]

theorem kw_address : str "address" = [97, 100, 100, 114, 101, 115, 115] := by decide

theorem addr_line_length (A : List Nat) (h : canonical A) : (addr_line A).length = 28 := by
  simp [addr_line_eq, h.1]

theorem addr_line_no_nl (A : List Nat) (h : canonical A) : ∀ b ∈ addr_line A, b ≠ 10 := by
  intro b hb
  rw [addr_line_eq] at hb
  simp only [List.mem_cons, List.mem_append, List.mem_singleton, List.not_mem_nil, or_false] at hb
  rcases hb with rfl | rfl | rfl | rfl | rfl | rfl | rfl | rfl | rfl | rfl | hb | rfl <;>
    first | omega | exact canonical_no_nl A h b hb

theorem addr_line_no_nul (A : List Nat) (h : canonical A) :
    ∀ b ∈ addr_line A ++ [10], b ≠ 0 := by
  intro b hb
  rw [addr_line_eq] at hb
  simp only [List.mem_cons, List.mem_append, List.mem_singleton, List.not_mem_nil, or_false] at hb
  rcases hb with (rfl | rfl | rfl | rfl | rfl | rfl | rfl | rfl | rfl | rfl | hb | rfl) | rfl <;>
    first | omega | exact canonical_no_nul A h b hb

/-- The buffer `item` after `fgets` has read the address line of a block. -/
theorem fgets_addr_line (item A rest : List Nat) (h : canonical A) :
    fgets item CONFIG_LINE_MAX (addr_line A ++ 10 :: rest) =
      some (addr_line A ++ 10 :: 0 :: item.drop 30, rest) := by
  rw [fgets_line item (addr_line A) rest (addr_line_no_nl A h)
    (by rw [addr_line_length A h]; omega), addr_line_length A h]

theorem cstr_addr_item (A r : List Nat) (h : canonical A) :
    cstr (addr_line A ++ 10 :: 0 :: r) = addr_line A ++ [10] := by
  have := cstr_append_nul (addr_line A ++ [10]) r (addr_line_no_nul A h)
  simpa using this

theorem strstr_addr_item (A r : List Nat) (h : canonical A) :
    strstr (addr_line A ++ 10 :: 0 :: r) (str "address") = some 1 := by
  unfold strstr
  rw [cstr_addr_item A r h, kw_address, addr_line_eq]
  simp [find_sub, List.isPrefixOf]

theorem strchr_addr_item (A r : List Nat) (h : canonical A) :
    strchr (addr_line A ++ 10 :: 0 :: r) 34 = some 9 := by
  unfold strchr
  rw [cstr_addr_item A r h, addr_line_eq]
  simp [find_byte]

theorem drop_addr_item (A r : List Nat) :
    (addr_line A ++ 10 :: 0 :: r).drop 10 = A ++ (34 :: 10 :: 0 :: r) := by
  rw [addr_line_eq]
  simp

theorem cmp_addr_item (A X r : List Nat) (hA : canonical A) (hX : canonical X) :
    strncasecmp_eq 17 ((addr_line A ++ 10 :: 0 :: r).drop 10) X = decide (caseeq A X) := by
  rw [drop_addr_item]
  have := strncasecmp_eq_full 17 A X (34 :: 10 :: 0 :: r) [] hA.1 hX.1 (canonical_no_nul A hA)
  simpa using this

theorem cstr_drop_addr_item (A r : List Nat) (hA : canonical A) :
    (cstr ((addr_line A ++ 10 :: 0 :: r).drop 10)).take 17 = A := by
  rw [drop_addr_item]
  have h1 : ∀ b ∈ A ++ [34, 10], b ≠ 0 := by
    intro b hb
    simp only [List.mem_append, List.mem_cons, List.mem_singleton, List.not_mem_nil, or_false] at hb
    rcases hb with hb | rfl | rfl
    · exact canonical_no_nul A hA b hb
    · omega
    · omega
  have h2 := cstr_append_nul (A ++ [34, 10]) r h1
  have h3 : A ++ 34 :: 10 :: 0 :: r = (A ++ [34, 10]) ++ 0 :: r := by simp
  rw [h3, h2, List.take_append_of_le_length (by rw [hA.1])]
  rw [List.take_of_length_le (by rw [hA.1])]

/-- The buffer `item` after `fgets` has read a line that is a single byte and a
newline. -/
theorem fgets_short_line (item rest : List Nat) (c : Nat) (hc : c ≠ 10) :
    fgets item CONFIG_LINE_MAX (c :: 10 :: rest) = some (c :: 10 :: 0 :: item.drop 3, rest) := by
  have := fgets_line item [c] rest (by simpa using hc) (by simp)
  simpa using this

theorem strstr_open (r : List Nat) : strstr (123 :: 10 :: 0 :: r) (str "address") = none := by
  unfold strstr
  rw [show 123 :: 10 :: 0 :: r = [123, 10] ++ 0 :: r by rfl, cstr_append_nul _ _ (by decide), kw_address]
  decide

theorem strstr_close (r : List Nat) : strstr (125 :: 10 :: 0 :: r) (str "address") = none := by
  unfold strstr
  rw [show 125 :: 10 :: 0 :: r = [125, 10] ++ 0 :: r by rfl, cstr_append_nul _ _ (by decide), kw_address]
  decide

theorem strchr_open (r : List Nat) : strchr (123 :: 10 :: 0 :: r) 34 = none := by
  unfold strchr
  rw [show 123 :: 10 :: 0 :: r = [123, 10] ++ 0 :: r by rfl, cstr_append_nul _ _ (by decide)]
  decide

theorem strchr_close (r : List Nat) : strchr (125 :: 10 :: 0 :: r) 34 = none := by
  unfold strchr
  rw [show 125 :: 10 :: 0 :: r = [125, 10] ++ 0 :: r by rfl, cstr_append_nul _ _ (by decide)]
  decide


/-! ## The scan loops on a file of blocks -/

theorem addwl_scan_block (X A rest item : List Nat) (fuel : Nat)
    (hA : canonical A) (hX : canonical X) :
    addwl_scan X (fuel + 3) (wl_block A ++ rest) item =
      if caseeq A X then some true else addwl_scan X fuel rest item_zero := by
  rw [wl_block_eq]
  show addwl_scan X ((fuel + 2) + 1) _ _ = _
  simp only [addwl_scan, fgets_short_line _ _ 123 (show 123 ≠ 10 by decide), strstr_open,
    fgets_addr_line _ _ _ hA, strstr_addr_item _ _ hA, Nat.reduceAdd,
    cmp_addr_item A X _ hA hX, fgets_short_line _ _ 125 (show 125 ≠ 10 by decide), strstr_close]
  by_cases hc : caseeq A X <;> simp [hc]

theorem check_scan_block (X A rest item : List Nat) (fuel : Nat)
    (hA : canonical A) (hX : canonical X) :
    check_scan X (fuel + 3) (wl_block A ++ rest) item =
      if caseeq A X then some true else check_scan X fuel rest item_zero := by
  rw [wl_block_eq]
  show check_scan X ((fuel + 2) + 1) _ _ = _
  simp only [check_scan, fgets_short_line _ _ 123 (show 123 ≠ 10 by decide), strchr_open,
    fgets_addr_line _ _ _ hA, strchr_addr_item _ _ hA, Nat.reduceAdd,
    cmp_addr_item A X _ hA hX, fgets_short_line _ _ 125 (show 125 ≠ 10 by decide), strchr_close]
  by_cases hc : caseeq A X <;> simp [hc]

theorem lswl_scan_block (A rest item out : List Nat) (fuel : Nat) (hA : canonical A) :
    lswl_scan (fuel + 3) (wl_block A ++ rest) item out =
      lswl_scan fuel rest item_zero (out ++ A ++ [10]) := by
  rw [wl_block_eq]
  show lswl_scan ((fuel + 2) + 1) _ _ _ = _
  simp only [lswl_scan, fgets_short_line _ _ 123 (show 123 ≠ 10 by decide), strstr_open,
    fgets_addr_line _ _ _ hA, strstr_addr_item _ _ hA, Nat.reduceAdd,
    cstr_drop_addr_item A _ hA, fgets_short_line _ _ 125 (show 125 ≠ 10 by decide), strstr_close]


theorem head_addr_item (A r : List Nat) : (addr_line A ++ 10 :: 0 :: r).headD 0 = 9 := by
  rw [addr_line_eq]; rfl

theorem record_of_addr_item (A r : List Nat) (hA : canonical A) :
    str "\x7b\n" ++ cstr (addr_line A ++ 10 :: 0 :: r) ++ str "\x7d\n" = wl_block A := by
  rw [cstr_addr_item A r hA]
  simp [wl_block, addr_line, str]

theorem rmwl_block_lines (bufsiz : Nat) (X A rest item : List Nat) (out : OStream) (fuel : Nat)
    (hA : canonical A) (hX : canonical X) :
    rmwl_block bufsiz X (fuel + 2) (addr_line A ++ 10 :: 125 :: 10 :: rest) item out =
      some (rest, 125 :: 10 :: 0 :: (addr_line A ++ 10 :: 0 :: item.drop 30).drop 3,
        if caseeq A X then out else fwrite bufsiz out (wl_block A)) := by
  show rmwl_block bufsiz X ((fuel + 1) + 1) _ _ _ = _
  simp only [rmwl_block, fgets_addr_line _ _ _ hA, head_addr_item, strstr_addr_item _ _ hA,
    Nat.reduceAdd, cmp_addr_item A X _ hA hX, record_of_addr_item A _ hA]
  by_cases hc : caseeq A X
  · simp [hc, fgets_short_line _ _ 125 (show 125 ≠ 10 by decide)]
  · simp [hc, fgets_short_line _ _ 125 (show 125 ≠ 10 by decide)]

theorem rmwl_copy_block (bufsiz : Nat) (X A rest item : List Nat) (out : OStream) (fuel : Nat)
    (hA : canonical A) (hX : canonical X) :
    rmwl_copy bufsiz X (fuel + 1) (wl_block A ++ rest) item out =
      rmwl_copy bufsiz X fuel rest item_zero
        (if caseeq A X then out else fwrite bufsiz out (wl_block A)) := by
  rw [wl_block_eq]
  rw [rmwl_copy]
  simp only [fgets_short_line _ _ 123 (show 123 ≠ 10 by decide)]
  rw [if_pos (by rfl)]
  have hlen : (addr_line A ++ 10 :: 125 :: 10 :: rest).length + 1 = (rest.length + 30) + 2 := by
    simp only [List.length_append, List.length_cons, addr_line_length A hA]
    omega
  rw [hlen, rmwl_block_lines bufsiz X A rest _ out _ hA hX]


theorem wl_file_nil : wl_file [] = [] := rfl

theorem wl_file_cons (A : List Nat) (L : List (List Nat)) :
    wl_file (A :: L) = wl_block A ++ wl_file L := by
  simp [wl_file]

theorem wl_file_append (L M : List (List Nat)) : wl_file (L ++ M) = wl_file L ++ wl_file M := by
  simp [wl_file]

theorem wl_block_length (A : List Nat) (hA : canonical A) : (wl_block A).length = 33 := by
  simp [wl_block, str, hA.1]

theorem wl_file_length (L : List (List Nat)) (hL : all_canonical L) :
    (wl_file L).length = 33 * L.length := by
  induction L with
  | nil => rfl
  | cons A L ih =>
    rw [wl_file_cons, List.length_append, wl_block_length A (hL A (List.mem_cons_self _ _)),
      ih (fun B hB => hL B (List.mem_cons_of_mem _ hB))]
    simp only [List.length_cons]
    omega

theorem addwl_scan_file (X : List Nat) (hX : canonical X) :
    ∀ (L : List (List Nat)) (fuel : Nat) (item : List Nat), all_canonical L →
      3 * L.length < fuel →
      addwl_scan X fuel (wl_file L) item = some (decide (∃ A ∈ L, caseeq A X)) := by
  intro L
  induction L with
  | nil =>
    intro fuel item _ hf
    match fuel, hf with
    | f + 1, _ => simp [wl_file_nil, addwl_scan, fgets]
  | cons A L ih =>
    intro fuel item hL hf
    have hA := hL A (List.mem_cons_self _ _)
    have hL' : all_canonical L := fun B hB => hL B (List.mem_cons_of_mem _ hB)
    obtain ⟨f, rfl⟩ : ∃ f, fuel = f + 3 := ⟨fuel - 3, by simp at hf; omega⟩
    rw [wl_file_cons, addwl_scan_block X A _ item f hA hX]
    by_cases hc : caseeq A X
    · simp [hc]
    · rw [if_neg hc, ih f item_zero hL' (by simp at hf; omega)]
      simp [hc]

theorem check_scan_file (X : List Nat) (hX : canonical X) :
    ∀ (L : List (List Nat)) (fuel : Nat) (item : List Nat), all_canonical L →
      3 * L.length < fuel →
      check_scan X fuel (wl_file L) item = some (decide (∃ A ∈ L, caseeq A X)) := by
  intro L
  induction L with
  | nil =>
    intro fuel item _ hf
    match fuel, hf with
    | f + 1, _ => simp [wl_file_nil, check_scan, fgets]
  | cons A L ih =>
    intro fuel item hL hf
    have hA := hL A (List.mem_cons_self _ _)
    have hL' : all_canonical L := fun B hB => hL B (List.mem_cons_of_mem _ hB)
    obtain ⟨f, rfl⟩ : ∃ f, fuel = f + 3 := ⟨fuel - 3, by simp at hf; omega⟩
    rw [wl_file_cons, check_scan_block X A _ item f hA hX]
    by_cases hc : caseeq A X
    · simp [hc]
    · rw [if_neg hc, ih f item_zero hL' (by simp at hf; omega)]
      simp [hc]

theorem lswl_scan_file :
    ∀ (L : List (List Nat)) (fuel : Nat) (item out : List Nat), all_canonical L →
      3 * L.length < fuel →
      lswl_scan fuel (wl_file L) item out = some (out ++ (L.map (· ++ [10])).flatten) := by
  intro L
  induction L with
  | nil =>
    intro fuel item out _ hf
    match fuel, hf with
    | f + 1, _ => simp [wl_file_nil, lswl_scan, fgets]
  | cons A L ih =>
    intro fuel item out hL hf
    have hA := hL A (List.mem_cons_self _ _)
    have hL' : all_canonical L := fun B hB => hL B (List.mem_cons_of_mem _ hB)
    obtain ⟨f, rfl⟩ : ∃ f, fuel = f + 3 := ⟨fuel - 3, by simp at hf; omega⟩
    rw [wl_file_cons, lswl_scan_block A _ item out f hA, ih f item_zero _ hL' (by simp at hf; omega)]
    simp

theorem rmwl_copy_file (bufsiz : Nat) (X : List Nat) (hX : canonical X) :
    ∀ (L : List (List Nat)) (fuel : Nat) (item : List Nat) (out : OStream), all_canonical L →
      L.length < fuel →
      rmwl_copy bufsiz X fuel (wl_file L) item out =
        some (fwrite_blocks bufsiz out (remove_addr X L)) := by
  intro L
  induction L with
  | nil =>
    intro fuel item out _ hf
    match fuel, hf with
    | f + 1, _ => simp [wl_file_nil, rmwl_copy, fgets, fwrite_blocks, remove_addr]
  | cons A L ih =>
    intro fuel item out hL hf
    have hA := hL A (List.mem_cons_self _ _)
    have hL' : all_canonical L := fun B hB => hL B (List.mem_cons_of_mem _ hB)
    obtain ⟨f, rfl⟩ : ∃ f, fuel = f + 1 := ⟨fuel - 1, by omega⟩
    rw [wl_file_cons, rmwl_copy_block bufsiz X A _ item out f hA hX,
      ih f item_zero _ hL' (by simp at hf; omega)]
    by_cases hc : caseeq A X
    · simp [hc, remove_addr, fwrite_blocks]
    · simp [hc, remove_addr, fwrite_blocks]

theorem fwrite_all (bufsiz : Nat) (out : OStream) (data : List Nat) :
    (fwrite bufsiz out data).disk ++ (fwrite bufsiz out data).buffer =
      out.disk ++ out.buffer ++ data := by
  simp [fwrite]

theorem fwrite_blocks_all (bufsiz : Nat) :
    ∀ (L : List (List Nat)) (out : OStream),
      (fwrite_blocks bufsiz out L).disk ++ (fwrite_blocks bufsiz out L).buffer =
        out.disk ++ out.buffer ++ wl_file L := by
  intro L
  induction L with
  | nil => intro out; simp [fwrite_blocks, wl_file_nil]
  | cons A L ih =>
    intro out
    have := ih (fwrite bufsiz out (wl_block A))
    simp only [fwrite_blocks, List.foldl_cons] at this ⊢
    rw [this, fwrite_all, wl_file_cons]
    simp

/-! ## The whitelist commands on a file of blocks -/

theorem fuel_enough (L : List (List Nat)) (hL : all_canonical L) :
    3 * L.length < (wl_file L).length + 1 := by
  rw [wl_file_length L hL]; omega

theorem addwl_record_eq (X : List Nat) (hX : canonical X) : addwl_record X = wl_block X := by
  unfold addwl_record wl_block
  rw [cstr_of_no_nul X (canonical_no_nul X hX)]

theorem cmd_addwl_file (X : List Nat) (L : List (List Nat)) (w : World)
    (hX : canonical X) (hL : all_canonical L) (hc : w.conf.getD [] = wl_file L)
    (hs : w.swp = none) (hl : w.locked = false) :
    cmd_addwl X w = some { w with conf := some (wl_file (add_addr X L)) } := by
  unfold cmd_addwl
  rw [if_neg (by rw [strlen_canonical X hX]; simp), hs, hl]
  simp only [Option.isSome_none, Bool.false_eq_true, if_false, hc]
  rw [addwl_scan_file X hX L _ _ hL (fuel_enough L hL)]
  by_cases h : ∃ A ∈ L, caseeq A X
  · simp [h, add_addr]
  · simp [h, add_addr, wl_file_append, addwl_record_eq X hX, wl_file]

theorem check_whitelist_file (X : List Nat) (L : List (List Nat)) (w : World)
    (hX : canonical X) (hL : all_canonical L) (hc : w.conf.getD [] = wl_file L)
    (hs : w.swp = none) (hl : w.locked = false) :
    (check_whitelist X w).map Prod.fst = some (decide (∃ A ∈ L, caseeq A X)) := by
  unfold check_whitelist
  rw [hs, hl]
  simp only [Option.isSome_none, Bool.false_eq_true, if_false, hc]
  rw [check_scan_file X hX L _ _ hL (fuel_enough L hL)]
  by_cases h : ∃ A ∈ L, caseeq A X
  · simp [h]
  · simp [h]

theorem cmd_lswl_file (L : List (List Nat)) (w : World)
    (hL : all_canonical L) (hc : w.conf.getD [] = wl_file L)
    (hs : w.swp = none) (hl : w.locked = false) :
    (cmd_lswl w).map World.stdout = some (w.stdout ++ (L.map (· ++ [10])).flatten) := by
  unfold cmd_lswl
  rw [hs, hl]
  simp only [Option.isSome_none, Bool.false_eq_true, if_false, hc]
  rw [lswl_scan_file L _ _ _ hL (fuel_enough L hL)]
  rfl

theorem cmd_rmwl_file (bufsiz : Nat) (X : List Nat) (L : List (List Nat)) (w : World)
    (hX : canonical X) (hL : all_canonical L) (hc : w.conf.getD [] = wl_file L)
    (hs : w.swp = none) (hl : w.locked = false) :
    cmd_rmwl bufsiz X w = some { w with
      conf := some (fwrite_blocks bufsiz ⟨[], []⟩ (remove_addr X L)).disk
      swp := none
      unflushed := (fwrite_blocks bufsiz ⟨[], []⟩ (remove_addr X L)).buffer } := by
  unfold cmd_rmwl rmwl_until_rename
  rw [if_neg (by rw [strlen_canonical X hX]; simp), hs, hl]
  simp only [Option.isSome_none, Bool.false_eq_true, if_false, hc]
  rw [rmwl_copy_file bufsiz X hX L _ _ _ hL (by have := fuel_enough L hL; omega)]

theorem caseeq_refl (A : List Nat) : caseeq A A := rfl

theorem caseeq_symm {A B : List Nat} (h : caseeq A B) : caseeq B A := Eq.symm h

theorem caseeq_trans {A B C : List Nat} (h1 : caseeq A B) (h2 : caseeq B C) : caseeq A C :=
  Eq.trans h1 h2

theorem add_addr_canonical (X : List Nat) (L : List (List Nat)) (hX : canonical X)
    (hL : all_canonical L) : all_canonical (add_addr X L) := by
  unfold add_addr
  split
  · exact hL
  · intro A hA
    rcases List.mem_append.mp hA with h | h
    · exact hL A h
    · rw [List.mem_singleton.mp h]; exact hX

theorem add_addr_has (X : List Nat) (L : List (List Nat)) : ∃ A ∈ add_addr X L, caseeq A X := by
  unfold add_addr
  split
  · assumption
  · exact ⟨X, by simp, caseeq_refl X⟩

theorem add_addr_idem (X : List Nat) (L : List (List Nat)) :
    add_addr X (add_addr X L) = add_addr X L := by
  have h := add_addr_has X L
  generalize add_addr X L = M at h ⊢
  unfold add_addr
  rw [if_pos h]

theorem add_addr_distinct (X : List Nat) (L : List (List Nat)) (hd : distinct_addrs L) :
    distinct_addrs (add_addr X L) := by
  unfold add_addr
  split
  · exact hd
  · rename_i h
    unfold distinct_addrs at hd ⊢
    rw [List.pairwise_append]
    refine ⟨hd, List.pairwise_singleton _ _, ?_⟩
    intro A hA B hB
    rw [List.mem_singleton.mp hB]
    exact fun hc => h ⟨A, hA, hc⟩

theorem count_le_one (X : List Nat) :
    ∀ (L : List (List Nat)), distinct_addrs L →
      L.countP (fun A => decide (caseeq A X)) ≤ 1 := by
  intro L
  induction L with
  | nil => intro _; simp
  | cons A L ih =>
    intro hd
    unfold distinct_addrs at hd
    rw [List.pairwise_cons] at hd
    by_cases hc : caseeq A X
    · have hz : L.countP (fun B => decide (caseeq B X)) = 0 := by
        rw [List.countP_eq_zero]
        intro B hB
        simp only [decide_eq_true_eq]
        exact fun hb => hd.1 B hB (caseeq_trans hc (caseeq_symm hb))
      rw [List.countP_cons_of_pos _ _ (by simpa using hc), hz]
    · rw [List.countP_cons_of_neg _ _ (by simpa using hc)]
      exact ih hd.2

theorem add_addr_count (X : List Nat) (L : List (List Nat)) (hd : distinct_addrs L) :
    (add_addr X L).countP (fun A => decide (caseeq A X)) = 1 := by
  have h1 := count_le_one X (add_addr X L) (add_addr_distinct X L hd)
  obtain ⟨A, hA, hc⟩ := add_addr_has X L
  have h2 : 0 < (add_addr X L).countP (fun A => decide (caseeq A X)) := by
    rw [List.countP_pos_iff]
    exact ⟨A, hA, by simpa using hc⟩
  omega

theorem remove_addr_none (X : List Nat) (L : List (List Nat)) :
    ¬ ∃ A ∈ remove_addr X L, caseeq A X := by
  rintro ⟨A, hA, hc⟩
  unfold remove_addr at hA
  rw [List.mem_filter] at hA
  simp at hA
  exact hA.2 hc

theorem remove_addr_canonical (X : List Nat) (L : List (List Nat)) (hL : all_canonical L) :
    all_canonical (remove_addr X L) := by
  intro A hA
  unfold remove_addr at hA
  exact hL A (List.mem_filter.mp hA).1

/-! ## A whitelist file cut short -/

theorem check_scan_nil (X item : List Nat) (fuel : Nat) :
    check_scan X (fuel + 1) [] item = some false := by
  simp [check_scan, fgets]

theorem addr_line_take_no_nl (A : List Nat) (hA : canonical A) (j : Nat) :
    ∀ b ∈ (addr_line A).take j, b ≠ 10 :=
  fun b hb => addr_line_no_nl A hA b (List.mem_of_mem_take hb)

theorem addr_line_take_no_nul (A : List Nat) (hA : canonical A) (j : Nat) :
    ∀ b ∈ (addr_line A).take j, b ≠ 0 :=
  fun b hb => addr_line_no_nul A hA b (List.mem_append_left _ (List.mem_of_mem_take hb))

/-- The lookup on the start of an address line that is cut before its newline. -/
theorem check_scan_cut_line (X A item : List Nat) (fuel j : Nat)
    (hA : canonical A) (hX : canonical X) (hc : ¬ caseeq A X) (hj1 : 1 ≤ j) :
    check_scan X (fuel + 2) ((addr_line A).take j) item = some false := by
  have hne : (addr_line A).take j ≠ [] := by
    rw [addr_line_eq]
    match j, hj1 with
    | k + 1, _ => simp
  have hlen : ((addr_line A).take j).length ≤ 255 := by
    rw [List.length_take, addr_line_length A hA]; omega
  show check_scan X ((fuel + 1) + 1) _ _ = _
  rw [check_scan, fgets_last item _ (addr_line_take_no_nl A hA j) hlen hne]
  simp only
  have hcs : cstr ((addr_line A).take j ++ 0 :: item.drop (((addr_line A).take j).length + 1))
      = (addr_line A).take j := cstr_append_nul _ _ (addr_line_take_no_nul A hA j)
  unfold strchr
  rw [hcs]
  by_cases hj : j ≤ 9
  · have : find_byte 34 ((addr_line A).take j) = none := by
      rw [addr_line_eq]
      interval_cases j <;> simp [find_byte]
    rw [this]
    exact check_scan_nil X _ fuel
  · have hq : (addr_line A).take j
        = 9 :: 97 :: 100 :: 100 :: 114 :: 101 :: 115 :: 115 :: 61 :: 34 :: (A ++ [34]).take (j - 10) := by
      rw [addr_line_eq]
      obtain ⟨m, rfl⟩ : ∃ m, j = m + 10 := ⟨j - 10, by omega⟩
      simp
    have hf : find_byte 34 ((addr_line A).take j) = some 9 := by
      rw [hq]; simp [find_byte]
    rw [hf]
    simp only [Nat.reduceAdd]
    have hd : ((addr_line A).take j ++ 0 :: item.drop (((addr_line A).take j).length + 1)).drop 10
        = (A ++ [34]).take (j - 10) ++ 0 :: item.drop (((addr_line A).take j).length + 1) := by
      rw [hq]; simp
    rw [hd]
    have hcmp : strncasecmp_eq 17
        ((A ++ [34]).take (j - 10) ++ 0 :: item.drop (((addr_line A).take j).length + 1)) X
        = false := by
      by_cases hm : j - 10 < 17
      · exact strncasecmp_eq_short 17 _ X _ (by rw [List.length_take]; omega)
          (by rw [hX.1]) (canonical_no_nul X hX)
      · have ht : (A ++ [34]).take (j - 10) = A ++ ([34] : List Nat).take (j - 10 - 17) := by
          rw [List.take_append_eq_append_take, hA.1, List.take_of_length_le (by rw [hA.1]; omega)]
        rw [ht, List.append_assoc]
        have := strncasecmp_eq_full 17 A X
          (([34] : List Nat).take (j - 10 - 17) ++ 0 :: item.drop (((addr_line A).take j).length + 1))
          [] hA.1 hX.1 (canonical_no_nul A hA)
        rw [List.append_nil] at this
        rw [this]
        simp [hc]
    rw [hcmp]
    simp only [Bool.false_eq_true, if_false]
    exact check_scan_nil X _ fuel


theorem check_scan_open (X rest item : List Nat) (fuel : Nat) :
    check_scan X (fuel + 1) (123 :: 10 :: rest) item = check_scan X fuel rest item_zero := by
  rw [check_scan]
  simp only [fgets_short_line _ _ 123 (show 123 ≠ 10 by decide), strchr_open]

theorem check_scan_addr_line (X A rest item : List Nat) (fuel : Nat)
    (hA : canonical A) (hX : canonical X) (hc : ¬ caseeq A X) :
    check_scan X (fuel + 1) (addr_line A ++ 10 :: rest) item = check_scan X fuel rest item_zero := by
  rw [check_scan]
  simp only [fgets_addr_line _ _ _ hA, strchr_addr_item _ _ hA, Nat.reduceAdd,
    cmp_addr_item A X _ hA hX]
  simp [hc]

theorem check_scan_close_cut (X item : List Nat) (fuel : Nat) :
    check_scan X (fuel + 2) [125] item = some false := by
  show check_scan X ((fuel + 1) + 1) _ _ = _
  rw [check_scan, fgets_last item [125] (by decide) (by decide) (by decide)]
  simp only
  have : strchr ([125] ++ 0 :: item.drop (([125] : List Nat).length + 1)) 34 = none := by
    unfold strchr
    rw [cstr_append_nul _ _ (by decide)]
    decide
  rw [this]
  exact check_scan_nil X _ fuel

theorem check_scan_open_cut (X item : List Nat) (fuel : Nat) :
    check_scan X (fuel + 2) [123] item = some false := by
  show check_scan X ((fuel + 1) + 1) _ _ = _
  rw [check_scan, fgets_last item [123] (by decide) (by decide) (by decide)]
  simp only
  have : strchr ([123] ++ 0 :: item.drop (([123] : List Nat).length + 1)) 34 = none := by
    unfold strchr
    rw [cstr_append_nul _ _ (by decide)]
    decide
  rw [this]
  exact check_scan_nil X _ fuel

theorem wl_block_cons (A : List Nat) :
    wl_block A = 123 :: 10 :: (addr_line A ++ [10, 125, 10]) := by
  have := wl_block_eq A []
  simpa using this

/-- The lookup on the start of a block: no match when the block's address is
not the one looked up. -/
theorem check_scan_cut_block (X A item : List Nat) (fuel k : Nat)
    (hA : canonical A) (hX : canonical X) (hc : ¬ caseeq A X) (hf : k < fuel) :
    check_scan X fuel ((wl_block A).take k) item = some false := by
  rw [wl_block_cons]
  match k, hf with
  | 0, hf =>
    obtain ⟨f, rfl⟩ : ∃ f, fuel = f + 1 := ⟨fuel - 1, by omega⟩
    exact check_scan_nil X item f
  | 1, hf =>
    obtain ⟨f, rfl⟩ : ∃ f, fuel = f + 2 := ⟨fuel - 2, by omega⟩
    exact check_scan_open_cut X item f
  | j + 2, hf =>
    obtain ⟨f, rfl⟩ : ∃ f, fuel = f + 3 := ⟨fuel - 3, by omega⟩
    rw [List.take_succ_cons, List.take_succ_cons]
    show check_scan X ((f + 2) + 1) _ _ = _
    rw [check_scan_open]
    by_cases hj0 : j = 0
    · subst hj0
      exact check_scan_nil X _ (f + 1)
    by_cases hj : j ≤ 28
    · rw [List.take_append_of_le_length (by rw [addr_line_length A hA]; exact hj)]
      exact check_scan_cut_line X A _ f j hA hX hc (by omega)
    · obtain ⟨m, rfl⟩ : ∃ m, j = 28 + (m + 1) := ⟨j - 29, by omega⟩
      have ht : (addr_line A ++ [10, 125, 10]).take (28 + (m + 1))
          = addr_line A ++ 10 :: ([125, 10] : List Nat).take m := by
        rw [← addr_line_length A hA, List.take_append]
        rfl
      rw [ht]
      show check_scan X ((f + 1) + 1) _ _ = _
      rw [check_scan_addr_line X A _ _ (f + 1) hA hX hc]
      match m with
      | 0 => exact check_scan_nil X _ f
      | 1 =>
        obtain ⟨g, rfl⟩ : ∃ g, f = g + 1 := ⟨f - 1, by omega⟩
        exact check_scan_close_cut X _ g
      | n + 2 =>
        obtain ⟨g, rfl⟩ : ∃ g, f = g + 1 := ⟨f - 1, by omega⟩
        have : ([125, 10] : List Nat).take (n + 2) = [125, 10] := by simp
        rw [this]
        show check_scan X ((g + 1) + 1) _ _ = _
        rw [check_scan]
        simp only [fgets_short_line _ _ 125 (show 125 ≠ 10 by decide), strchr_close]
        exact check_scan_nil X _ g

/-- The lookup on any initial part of a file of blocks none of which has the
address looked up. -/
theorem check_scan_cut_file (X : List Nat) (hX : canonical X) :
    ∀ (L : List (List Nat)) (P item : List Nat) (fuel : Nat), all_canonical L →
      (¬ ∃ A ∈ L, caseeq A X) → P <+: wl_file L → P.length < fuel →
      check_scan X fuel P item = some false := by
  intro L
  induction L with
  | nil =>
    intro P item fuel _ _ hP hf
    rw [wl_file_nil, List.prefix_nil] at hP
    subst hP
    obtain ⟨f, rfl⟩ : ∃ f, fuel = f + 1 := ⟨fuel - 1, by omega⟩
    exact check_scan_nil X item f
  | cons A L ih =>
    intro P item fuel hL hn hP hf
    have hA := hL A (List.mem_cons_self _ _)
    have hL' : all_canonical L := fun B hB => hL B (List.mem_cons_of_mem _ hB)
    have hcA : ¬ caseeq A X := fun h => hn ⟨A, List.mem_cons_self _ _, h⟩
    have hn' : ¬ ∃ B ∈ L, caseeq B X := fun ⟨B, hB, h⟩ => hn ⟨B, List.mem_cons_of_mem _ hB, h⟩
    rw [wl_file_cons] at hP
    rcases List.prefix_or_prefix_of_prefix hP (List.prefix_append _ _) with h1 | h1
    · rw [List.prefix_iff_eq_take.mp h1]
      exact check_scan_cut_block X A item fuel P.length hA hX hcA hf
    · obtain ⟨t, rfl⟩ := h1
      have ht : t <+: wl_file L := (List.prefix_append_right_inj _).mp hP
      have hlen : (wl_block A ++ t).length = 33 + t.length := by
        rw [List.length_append, wl_block_length A hA]
      obtain ⟨f, rfl⟩ : ∃ f, fuel = f + 3 := ⟨fuel - 3, by omega⟩
      rw [check_scan_block X A t item f hA hX, if_neg hcA]
      exact ih t item_zero f hL' hn' ht (by omega)

theorem addwl_all_file :
    ∀ (Xs L : List (List Nat)) (w : World), all_canonical Xs → all_canonical L →
      distinct_addrs (L ++ Xs) → w.conf.getD [] = wl_file L → w.swp = none → w.locked = false →
      ∃ w1, addwl_all Xs w = some w1 ∧ w1.conf.getD [] = wl_file (L ++ Xs) ∧
        w1.swp = none ∧ w1.locked = false ∧ w1.stdout = w.stdout := by
  intro Xs
  induction Xs with
  | nil =>
    intro L w _ _ _ hc hs hl
    exact ⟨w, rfl, by simpa using hc, hs, hl, rfl⟩
  | cons X Xs ih =>
    intro L w hXs hL hd hc hs hl
    have hX := hXs X (List.mem_cons_self _ _)
    have hXs' : all_canonical Xs := fun B hB => hXs B (List.mem_cons_of_mem _ hB)
    have hno : ¬ ∃ A ∈ L, caseeq A X := by
      rintro ⟨A, hA, hcase⟩
      unfold distinct_addrs at hd
      rw [List.pairwise_append] at hd
      exact hd.2.2 A hA X (List.mem_cons_self _ _) hcase
    have hadd : add_addr X L = L ++ [X] := by
      unfold add_addr; rw [if_neg hno]
    have hL2 : all_canonical (L ++ [X]) := by
      rw [← hadd]; exact add_addr_canonical X L hX hL
    have hd2 : distinct_addrs ((L ++ [X]) ++ Xs) := by
      rw [List.append_assoc]; exact hd
    obtain ⟨w1, h1, h2, h3, h4, h5⟩ :=
      ih (L ++ [X]) { w with conf := some (wl_file (L ++ [X])) } hXs' hL2 hd2 rfl hs hl
    refine ⟨w1, ?_, ?_, h3, h4, h5⟩
    · rw [addwl_all, cmd_addwl_file X L w hX hL hc hs hl, hadd]
      exact h1
    · rw [h2, List.append_assoc]; rfl

/-! ## Claims on the whitelist store -/

/-- C6: for a canonical address `X` and a whitelist file that is empty or
missing or a sequence of blocks written by `add`, with no staging file and no
foreign lock, `cmd_addwl(X)` followed by `check_whitelist(X)` returns true, and
so does the lookup of any canonical `X1` equal to `X` when letter case is
ignored (in particular `X` with its letters in the other case). -/
theorem add_then_contains (X X1 : List Nat) (L : List (List Nat)) (w : World)
    (hX : canonical X) (hX1 : canonical X1) (hcase : caseeq X1 X)
    (hL : all_canonical L) (hc : w.conf.getD [] = wl_file L)
    (hs : w.swp = none) (hl : w.locked = false) :
    ((cmd_addwl X w).bind (check_whitelist X)).map Prod.fst = some true ∧
    ((cmd_addwl X w).bind (check_whitelist X1)).map Prod.fst = some true := by
  rw [cmd_addwl_file X L w hX hL hc hs hl]
  simp only [Option.some_bind]
  have hL2 := add_addr_canonical X L hX hL
  obtain ⟨A, hA, hAX⟩ := add_addr_has X L
  constructor
  · rw [check_whitelist_file X (add_addr X L)
      { w with conf := some (wl_file (add_addr X L)) } hX hL2 rfl hs hl]
    simp only [Option.some.injEq, decide_eq_true_eq]
    exact ⟨A, hA, hAX⟩
  · rw [check_whitelist_file X1 (add_addr X L)
      { w with conf := some (wl_file (add_addr X L)) } hX1 hL2 rfl hs hl]
    simp only [Option.some.injEq, decide_eq_true_eq]
    exact ⟨A, hA, caseeq_trans hAX (caseeq_symm hcase)⟩

/-- C6 at a concrete input: add "AA:BB:CC:DD:EE:FF" to a file that holds
"11:22:33:44:55:66", then look it up in upper and in lower case. -/
theorem add_then_contains_witness :
    canonical addr_AA ∧ canonical addr_aa ∧ caseeq addr_aa addr_AA ∧ all_canonical [addr_11] ∧
    ((cmd_addwl addr_AA (world_of [addr_11])).bind (check_whitelist addr_AA)).map Prod.fst
      = some true ∧
    ((cmd_addwl addr_AA (world_of [addr_11])).bind (check_whitelist addr_aa)).map Prod.fst
      = some true :=
  ⟨by decide, by decide, by decide, by decide,
    add_then_contains addr_AA addr_aa [addr_11] (world_of [addr_11])
      (by decide) (by decide) (by decide) (by decide) rfl rfl rfl⟩

/-- C7: for a canonical address `X` and a whitelist file made of blocks with
pairwise distinct canonical addresses (letter case ignored), with no staging
file and no foreign lock, after `cmd_addwl(X); cmd_addwl(X)` the file is the
sequence of blocks of `add_addr X L`; the second call changes nothing; the
file has exactly one block whose address equals `X` (letter case ignored); and
its addresses are pairwise distinct. -/
theorem add_twice_one_entry (X : List Nat) (L : List (List Nat)) (w : World)
    (hX : canonical X) (hL : all_canonical L) (hd : distinct_addrs L)
    (hc : w.conf.getD [] = wl_file L) (hs : w.swp = none) (hl : w.locked = false) :
    ((cmd_addwl X w).bind (cmd_addwl X)).map World.conf
      = some (some (wl_file (add_addr X L))) ∧
    (cmd_addwl X w).bind (cmd_addwl X) = cmd_addwl X w ∧
    (add_addr X L).countP (fun A => decide (caseeq A X)) = 1 ∧
    distinct_addrs (add_addr X L) ∧ all_canonical (add_addr X L) := by
  have h1 := cmd_addwl_file X L w hX hL hc hs hl
  have hL2 := add_addr_canonical X L hX hL
  have h2 := cmd_addwl_file X (add_addr X L) { w with conf := some (wl_file (add_addr X L)) }
    hX hL2 rfl hs hl
  rw [add_addr_idem] at h2
  refine ⟨?_, ?_, add_addr_count X L hd, add_addr_distinct X L hd, hL2⟩
  · rw [h1, Option.some_bind, h2]; rfl
  · rw [h1, Option.some_bind, h2]

/-- C7 at a concrete input: the file holds "aa:bb:cc:dd:ee:ff" and
"11:22:33:44:55:66", and "AA:BB:CC:DD:EE:FF" is added twice. -/
theorem add_twice_one_entry_witness :
    canonical addr_AA ∧ all_canonical [addr_aa, addr_11] ∧ distinct_addrs [addr_aa, addr_11] ∧
    ((cmd_addwl addr_AA (world_of [addr_aa, addr_11])).bind (cmd_addwl addr_AA)).map World.conf
      = some (some (wl_file (add_addr addr_AA [addr_aa, addr_11]))) ∧
    (cmd_addwl addr_AA (world_of [addr_aa, addr_11])).bind (cmd_addwl addr_AA)
      = cmd_addwl addr_AA (world_of [addr_aa, addr_11]) ∧
    (add_addr addr_AA [addr_aa, addr_11]).countP (fun A => decide (caseeq A addr_AA)) = 1 ∧
    distinct_addrs (add_addr addr_AA [addr_aa, addr_11]) ∧
    all_canonical (add_addr addr_AA [addr_aa, addr_11]) :=
  ⟨by decide, by decide, by decide,
    add_twice_one_entry addr_AA [addr_aa, addr_11] (world_of [addr_aa, addr_11])
      (by decide) (by decide) (by decide) rfl rfl rfl⟩

/-- C8: for a canonical address `X` and a whitelist file that is empty or a
sequence of blocks written by `add` (with or without `X`), with no staging
file and no foreign lock, after
`cmd_addwl(X); cmd_rmwl(X)` the lookup `check_whitelist(X)` returns false, both
on the primary file as it is on disk when `cmd_rmwl` returns and on the
primary file after the process has exited and its stdio buffers are written,
for every size of the stdio buffer. -/
theorem add_remove_not_contains (bufsiz : Nat) (X : List Nat) (L : List (List Nat)) (w : World)
    (hX : canonical X) (hL : all_canonical L) (hc : w.conf.getD [] = wl_file L)
    (hs : w.swp = none) (hl : w.locked = false) :
    (((cmd_addwl X w).bind (cmd_rmwl bufsiz X)).bind (check_whitelist X)).map Prod.fst
      = some false ∧
    ((((cmd_addwl X w).bind (cmd_rmwl bufsiz X)).map exit_process).bind
      (check_whitelist X)).map Prod.fst = some false := by
  have hL2 := add_addr_canonical X L hX hL
  have hL3 := remove_addr_canonical X (add_addr X L) hL2
  have hno := remove_addr_none X (add_addr X L)
  have hall := fwrite_blocks_all bufsiz (remove_addr X (add_addr X L)) ⟨[], []⟩
  simp only [List.nil_append] at hall
  rw [cmd_addwl_file X L w hX hL hc hs hl, Option.some_bind,
    cmd_rmwl_file bufsiz X (add_addr X L) { w with conf := some (wl_file (add_addr X L)) }
      hX hL2 rfl hs hl]
  simp only [Option.some_bind, Option.map_some']
  constructor
  · unfold check_whitelist
    simp only [hl, Option.isSome_none, Bool.false_eq_true, if_false, Option.getD_some]
    rw [check_scan_cut_file X hX (remove_addr X (add_addr X L)) _ _ _ hL3 hno
      (by rw [← hall]; exact List.prefix_append _ _) (Nat.lt_succ_self _)]
    rfl
  · rw [check_whitelist_file X (remove_addr X (add_addr X L))
      (exit_process { w with
        conf := some (fwrite_blocks bufsiz ⟨[], []⟩ (remove_addr X (add_addr X L))).disk
        swp := none
        unflushed := (fwrite_blocks bufsiz ⟨[], []⟩ (remove_addr X (add_addr X L))).buffer })
      hX hL3
      (by simp only [exit_process, Option.map_some', Option.getD_some]; exact hall) rfl hl]
    simp only [Option.some.injEq, decide_eq_false_iff_not]
    exact hno

/-- C8 at a concrete input: "AA:BB:CC:DD:EE:FF" is added to a file that holds
"aa:bb:cc:dd:ee:ff" and "11:22:33:44:55:66" and then removed, with a stdio
buffer of 4096 bytes. -/
theorem add_remove_not_contains_witness :
    canonical addr_AA ∧ all_canonical [addr_aa, addr_11] ∧
    (((cmd_addwl addr_AA (world_of [addr_aa, addr_11])).bind (cmd_rmwl 4096 addr_AA)).bind
      (check_whitelist addr_AA)).map Prod.fst = some false ∧
    ((((cmd_addwl addr_AA (world_of [addr_aa, addr_11])).bind (cmd_rmwl 4096 addr_AA)).map
      exit_process).bind (check_whitelist addr_AA)).map Prod.fst = some false :=
  ⟨by decide, by decide,
    add_remove_not_contains 4096 addr_AA [addr_aa, addr_11] (world_of [addr_aa, addr_11])
      (by decide) (by decide) rfl rfl rfl⟩

/-- C9: starting from an empty (or missing) whitelist file, with no staging
file and no foreign lock, after `cmd_addwl`
on each of `N` canonical addresses that are pairwise distinct (letter case
ignored), `cmd_lswl` prints exactly the `N` added addresses, each as its 17
characters followed by a newline, in the order of insertion, and nothing
else. -/
theorem add_all_then_list (Xs : List (List Nat)) (w : World)
    (hXs : all_canonical Xs) (hd : distinct_addrs Xs) (hc : w.conf.getD [] = [])
    (hs : w.swp = none) (hl : w.locked = false) :
    ((addwl_all Xs w).bind cmd_lswl).map World.stdout
      = some (w.stdout ++ (Xs.map (· ++ [10])).flatten) := by
  obtain ⟨w1, h1, h2, h3, h4, h5⟩ :=
    addwl_all_file Xs [] w hXs (fun A hA => nomatch hA) (by simpa using hd) hc hs hl
  rw [h1, Option.some_bind, cmd_lswl_file Xs w1 hXs (by simpa using h2) h3 h4, h5]

/-- C9 at a concrete input: two addresses added to a missing file, then listed. -/
theorem add_all_then_list_witness :
    all_canonical [addr_AA, addr_11] ∧ distinct_addrs [addr_AA, addr_11] ∧
    ((addwl_all [addr_AA, addr_11] world_empty).bind cmd_lswl).map World.stdout
      = some (str "AA:BB:CC:DD:EE:FF\n11:22:33:44:55:66\n") :=
  ⟨by decide, by decide,
    add_all_then_list [addr_AA, addr_11] world_empty (by decide) (by decide) rfl rfl rfl⟩

/-- C10, code defect: with the whitelist holding "AA:BB:CC:DD:EE:FF" and
"11:22:33:44:55:66" and a stdio buffer of 4096 bytes, when `cmd_rmwl` of the
first address calls `rename` the staging file is empty on disk and the kept
block is still in the buffer of the staging stream, which was neither flushed
nor closed; after the `rename` the primary file is empty on disk, which is
neither the original nor the filtered record set; the kept block reaches the
file only when the process exits. -/
theorem rename_before_flush :
    rmwl_until_rename 4096 addr_AA (world_of [addr_AA, addr_11]) =
      some { conf := wl_file [addr_AA, addr_11],
             swp := { disk := [], buffer := wl_file [addr_11] } } ∧
    (cmd_rmwl 4096 addr_AA (world_of [addr_AA, addr_11])).map World.conf = some (some []) ∧
    ([] : List Nat) ≠ wl_file [addr_AA, addr_11] ∧ ([] : List Nat) ≠ wl_file [addr_11] ∧
    ((cmd_rmwl 4096 addr_AA (world_of [addr_AA, addr_11])).map exit_process).map World.conf
      = some (some (wl_file [addr_11])) := by
  decide

/-! ## Claims on the capacity gate -/

theorem process_loop_cycle (auth : commissioning_auth_t) :
    ∀ (envs : List CycleEnv) (i : Nat) (calls : List LoopCall),
      (process_loop auth envs)[i]? = some calls →
      ∃ e, envs[i]? = some e ∧ calls = (loop_cycle auth e).1 := by
  intro envs
  induction envs with
  | nil => intro i calls h; simp [process_loop] at h
  | cons e es ih =>
    intro i calls h
    match i with
    | 0 =>
      simp only [process_loop, List.getElem?_cons_zero, Option.some.injEq] at h
      exact ⟨e, by simp, h.symm⟩
    | j + 1 =>
      simp only [process_loop, List.getElem?_cons_succ] at h
      split at h
      · simpa using ih j calls h
      · simp at h

theorem current_conn_num_failed (socket_ok malloc_ok ioctl_ok : Bool) (conn_num : Nat)
    (h : socket_ok = false ∨ malloc_ok = false ∨ ioctl_ok = false) :
    current_conn_num socket_ok malloc_ok ioctl_ok conn_num = -1 := by
  unfold current_conn_num
  rcases h with h | h | h <;> simp [h]

/-- C11, as stated, fails: in a cycle in which the socket allocation of
`current_conn_num` fails, the query returns -1 and the loop calls
`scan_ipsp_device`. -/
theorem failed_query_still_scans :
    current_conn_num false true true 0 = -1 ∧
    (loop_cycle COMMISSIONING_AUTH_NONE
      { socket_ok := false, malloc_ok := true, ioctl_ok := true, conn_num := 0,
        scan_ret := false, sigint := false }).1 = [LoopCall.scan_ipsp_device, LoopCall.sleep] := by
  decide

/-- C11, amended: the capacity gate fails open.  In every cycle of the control
loop in which `current_conn_num` fails (socket, allocation or ioctl), it returns
-1, the test `-1 < MAX_BLE_CONN` holds, and `scan_ipsp_device` is the first
call of that cycle. -/
theorem failed_query_fails_open (auth : commissioning_auth_t) (envs : List CycleEnv) (i : Nat)
    (e : CycleEnv) (calls : List LoopCall)
    (he : envs[i]? = some e) (hc : (process_loop auth envs)[i]? = some calls)
    (hfail : e.socket_ok = false ∨ e.malloc_ok = false ∨ e.ioctl_ok = false) :
    current_conn_num e.socket_ok e.malloc_ok e.ioctl_ok e.conn_num = -1 ∧
    calls.head? = some LoopCall.scan_ipsp_device := by
  obtain ⟨e1, he1, hcalls⟩ := process_loop_cycle auth envs i calls hc
  rw [he] at he1
  cases he1
  have hq := current_conn_num_failed e.socket_ok e.malloc_ok e.ioctl_ok e.conn_num hfail
  refine ⟨hq, ?_⟩
  rw [hcalls]
  unfold loop_cycle
  simp only [hq, MAX_BLE_CONN]
  cases e.scan_ret <;> cases e.sigint <;> cases auth <;> decide

/-- C11, amended, at a run of two cycles: the pool is full in the first, the
ioctl fails in the second, and the second cycle scans. -/
theorem failed_query_fails_open_witness :
    current_conn_num true true false 3 = -1 ∧
    (process_loop COMMISSIONING_AUTH_MANUAL
      [{ socket_ok := true, malloc_ok := true, ioctl_ok := true, conn_num := 8,
         scan_ret := false, sigint := false },
       { socket_ok := true, malloc_ok := true, ioctl_ok := false, conn_num := 3,
         scan_ret := true, sigint := false }])[1]? =
      some [LoopCall.scan_ipsp_device, LoopCall.comm_auth_pair, LoopCall.sleep] ∧
    ([LoopCall.scan_ipsp_device, LoopCall.comm_auth_pair, LoopCall.sleep] : List LoopCall).head?
      = some LoopCall.scan_ipsp_device :=
  ⟨by decide, by decide,
    (failed_query_fails_open COMMISSIONING_AUTH_MANUAL
      [{ socket_ok := true, malloc_ok := true, ioctl_ok := true, conn_num := 8,
         scan_ret := false, sigint := false },
       { socket_ok := true, malloc_ok := true, ioctl_ok := false, conn_num := 3,
         scan_ret := true, sigint := false }] 1
      { socket_ok := true, malloc_ok := true, ioctl_ok := false, conn_num := 3,
        scan_ret := true, sigint := false }
      [LoopCall.scan_ipsp_device, LoopCall.comm_auth_pair, LoopCall.sleep]
      (by decide) (by decide) (by decide)).2⟩

/-- C12: in every cycle of the control loop in which `current_conn_num`
reports a count of at least `MAX_BLE_CONN = 8`, the cycle calls neither
`scan_ipsp_device` nor the pairing nor `connect_device`: it goes straight to
the interrupt check and, unless interrupted, the sleep. -/
theorem full_pool_no_scan (auth : commissioning_auth_t) (envs : List CycleEnv) (i : Nat)
    (e : CycleEnv) (calls : List LoopCall)
    (he : envs[i]? = some e) (hc : (process_loop auth envs)[i]? = some calls)
    (hfull : (MAX_BLE_CONN : Int) ≤
      current_conn_num e.socket_ok e.malloc_ok e.ioctl_ok e.conn_num) :
    calls = (if e.sigint then [] else [LoopCall.sleep]) ∧
    LoopCall.scan_ipsp_device ∉ calls ∧ LoopCall.comm_auth_pair ∉ calls ∧
    LoopCall.connect_device ∉ calls := by
  obtain ⟨e1, he1, hcalls⟩ := process_loop_cycle auth envs i calls hc
  rw [he] at he1
  cases he1
  have hcs : calls = (if e.sigint then [] else [LoopCall.sleep]) := by
    have hn : ¬ (current_conn_num e.socket_ok e.malloc_ok e.ioctl_ok e.conn_num
        < (MAX_BLE_CONN : Int)) := by omega
    rw [hcalls]
    unfold loop_cycle
    simp only [if_neg hn]
    cases e.sigint <;> rfl
  refine ⟨hcs, ?_, ?_, ?_⟩ <;> (rw [hcs]; cases e.sigint <;> decide)

/-- C12 at a run of one cycle in which the ioctl reports exactly 8
connections and the scan would have found a device. -/
theorem full_pool_no_scan_witness :
    (MAX_BLE_CONN : Int) ≤ current_conn_num true true true 8 ∧
    (process_loop COMMISSIONING_AUTH_NONE
      [{ socket_ok := true, malloc_ok := true, ioctl_ok := true, conn_num := 8,
         scan_ret := true, sigint := false }])[0]? = some [LoopCall.sleep] ∧
    LoopCall.scan_ipsp_device ∉ [LoopCall.sleep] :=
  ⟨by decide, by decide,
    (full_pool_no_scan COMMISSIONING_AUTH_NONE
      [{ socket_ok := true, malloc_ok := true, ioctl_ok := true, conn_num := 8,
         scan_ret := true, sigint := false }] 0
      { socket_ok := true, malloc_ok := true, ioctl_ok := true, conn_num := 8,
        scan_ret := true, sigint := false } [LoopCall.sleep]
      (by decide) (by decide) (by decide)).2.1⟩

/-! ## Claims on the credentials -/

theorem validate_key_eq_zero_iff (key_value : List Nat) :
    validate_key key_value = 0 ↔
      AUTH_KEY_LEN ≤ strlen key_value ∧
        ∀ index, index < AUTH_KEY_LEN → isdigit (rd key_value index) = true := by
  unfold validate_key
  by_cases h1 : strlen key_value < AUTH_KEY_LEN
  · simp [h1]
  · rw [if_neg h1]
    by_cases h2 : ((List.range AUTH_KEY_LEN).all fun index => isdigit (rd key_value index)) = true
    · rw [if_pos h2]
      simp only [true_iff]
      refine ⟨by omega, ?_⟩
      intro index hi
      rw [List.all_eq_true] at h2
      exact h2 index (List.mem_range.mpr hi)
    · rw [if_neg h2]
      simp only [Int.reduceNeg, Int.reduceEq, false_iff, not_and]
      intro _ h3
      apply h2
      rw [List.all_eq_true]
      intro index hi
      exact h3 index (List.mem_range.mp hi)

/-- C13, code defect: the credentials "1234567" and "123456abc", which are
longer than 6 characters, are accepted: `validate_store_auth_params` returns 0
and stores their first six characters "123456".  `validate_key` rejects only
strings shorter than `AUTH_KEY_LEN`. -/
theorem long_key_accepted :
    validate_store_auth_params (some ssid_OpenWRT) (some (str "1234567")) auth_store_init =
      (0, { auth_ssid_value := ssid_OpenWRT ++ List.replicate 10 0, auth_ssid_len := 7,
            auth_key_value := str "123456" ++ [0] }) ∧
    validate_store_auth_params (some ssid_OpenWRT) (some (str "123456abc")) auth_store_init =
      (0, { auth_ssid_value := ssid_OpenWRT ++ List.replicate 10 0, auth_ssid_len := 7,
            auth_key_value := str "123456" ++ [0] }) := by
  decide

/-! ## Removal from a file of blocks with blanks -/

theorem ws_line_eq (b : WsBlock) :
    ws_line b = b.before ++
      (97 :: 100 :: 100 :: 114 :: 101 :: 115 :: 115 :: 61 :: 34 :: (b.addr ++ 34 :: b.after)) := by
  simp [ws_line, str]

theorem ws_block_eq (b : WsBlock) (rest : List Nat) :
    ws_block b ++ rest = 123 :: 10 :: (ws_line b ++ 10 :: 125 :: 10 :: rest) := by
  simp [ws_block, str]

theorem ws_line_bytes (b : WsBlock) (hb : is_blank b.before) (ha : is_blank b.after)
    (hc : canonical b.addr) : ∀ x ∈ ws_line b, x ≠ 0 ∧ x ≠ 10 := by
  intro x hx
  rw [ws_line_eq] at hx
  simp only [List.mem_append, List.mem_cons] at hx
  rcases hx with h | rfl | rfl | rfl | rfl | rfl | rfl | rfl | rfl | rfl | h | rfl | h
  · rcases hb x h with rfl | rfl <;> omega
  all_goals first
    | omega
    | exact ⟨(canonical_bytes b.addr hc x h).1, (canonical_bytes b.addr hc x h).2.1⟩
    | (rcases ha x h with rfl | rfl <;> omega)

theorem fgets_ws_line (item rest : List Nat) (b : WsBlock) (hb : is_blank b.before)
    (ha : is_blank b.after) (hc : canonical b.addr)
    (hfit : (ws_line b).length + 1 < CONFIG_LINE_MAX) :
    fgets item CONFIG_LINE_MAX (ws_line b ++ 10 :: rest) =
      some (ws_line b ++ 10 :: 0 :: item.drop ((ws_line b).length + 2), rest) :=
  fgets_line item (ws_line b) rest (fun x hx => (ws_line_bytes b hb ha hc x hx).2)
    (by simp only [CONFIG_LINE_MAX] at hfit; omega)

theorem cstr_ws_item (r : List Nat) (b : WsBlock) (hb : is_blank b.before)
    (ha : is_blank b.after) (hc : canonical b.addr) :
    cstr (ws_line b ++ 10 :: 0 :: r) = ws_line b ++ [10] := by
  have h : ∀ x ∈ ws_line b ++ [10], x ≠ 0 := by
    intro x hx
    rcases List.mem_append.mp hx with h | h
    · exact (ws_line_bytes b hb ha hc x h).1
    · rw [List.mem_singleton.mp h]; omega
  have := cstr_append_nul (ws_line b ++ [10]) r h
  simpa using this

theorem find_sub_after_blanks (tail : List Nat) :
    ∀ (before : List Nat), is_blank before →
      find_sub [97, 100, 100, 114, 101, 115, 115]
        (before ++ (97 :: 100 :: 100 :: 114 :: 101 :: 115 :: 115 :: tail)) = some before.length := by
  intro before
  induction before with
  | nil => intro _; simp [find_sub, List.isPrefixOf]
  | cons c cs ih =>
    intro h
    have hc : c ≠ 97 := by
      rcases h c (List.mem_cons_self _ _) with rfl | rfl <;> omega
    have := ih (fun x hx => h x (List.mem_cons_of_mem _ hx))
    simp only [List.cons_append, find_sub, List.isPrefixOf]
    simp [Ne.symm hc, this]

theorem strstr_ws_item (r : List Nat) (b : WsBlock) (hb : is_blank b.before)
    (ha : is_blank b.after) (hc : canonical b.addr) :
    strstr (ws_line b ++ 10 :: 0 :: r) (str "address") = some b.before.length := by
  unfold strstr
  rw [cstr_ws_item r b hb ha hc, kw_address, ws_line_eq, List.append_assoc]
  exact find_sub_after_blanks _ b.before hb

theorem head_ws_item (r : List Nat) (b : WsBlock) (hb : is_blank b.before) :
    (ws_line b ++ 10 :: 0 :: r).headD 0 ≠ 125 := by
  rw [ws_line_eq]
  match hbe : b.before with
  | [] => simp
  | c :: cs =>
    have : c = 32 ∨ c = 9 := hb c (by rw [hbe]; exact List.mem_cons_self _ _)
    simp only [List.cons_append, List.headD_cons]
    omega

theorem cmp_ws_item (X r : List Nat) (b : WsBlock) (hc : canonical b.addr) (hX : is_addr17 X) :
    strncasecmp_eq 17 ((ws_line b ++ 10 :: 0 :: r).drop (b.before.length + 9)) X =
      decide (caseeq b.addr X) := by
  have hd : (ws_line b ++ 10 :: 0 :: r).drop (b.before.length + 9)
      = b.addr ++ (34 :: b.after ++ 10 :: 0 :: r) := by
    rw [ws_line_eq, List.append_assoc, List.drop_append]
    simp
  rw [hd]
  have := strncasecmp_eq_full 17 b.addr X (34 :: b.after ++ 10 :: 0 :: r) [] hc.1 hX.1
    (canonical_no_nul b.addr hc)
  simpa using this

theorem record_of_ws_item (r : List Nat) (b : WsBlock) (hb : is_blank b.before)
    (ha : is_blank b.after) (hc : canonical b.addr) :
    str "\x7b\n" ++ cstr (ws_line b ++ 10 :: 0 :: r) ++ str "\x7d\n" = ws_block b := by
  rw [cstr_ws_item r b hb ha hc]
  simp [ws_block, str]

theorem rmwl_block_ws (bufsiz : Nat) (X rest item : List Nat) (out : OStream) (fuel : Nat)
    (b : WsBlock) (hb : is_blank b.before) (ha : is_blank b.after) (hc : canonical b.addr)
    (hfit : (ws_line b).length + 1 < CONFIG_LINE_MAX) (hX : is_addr17 X) :
    ∃ item1, rmwl_block bufsiz X (fuel + 2) (ws_line b ++ 10 :: 125 :: 10 :: rest) item out =
      some (rest, item1, if caseeq b.addr X then out else fwrite bufsiz out (ws_block b)) := by
  show ∃ item1, rmwl_block bufsiz X ((fuel + 1) + 1) _ _ _ = _
  rw [rmwl_block]
  simp only [fgets_ws_line _ _ b hb ha hc hfit, if_neg (head_ws_item _ b hb),
    strstr_ws_item _ b hb ha hc, cmp_ws_item X _ b hc hX, record_of_ws_item _ b hb ha hc]
  by_cases hcase : caseeq b.addr X
  · simp only [hcase, decide_True, if_true]
    rw [rmwl_block]
    simp only [fgets_short_line _ _ 125 (show 125 ≠ 10 by decide), List.headD_cons, if_true]
    exact ⟨_, rfl⟩
  · simp only [hcase, decide_False, Bool.false_eq_true, if_false]
    rw [rmwl_block]
    simp only [fgets_short_line _ _ 125 (show 125 ≠ 10 by decide), List.headD_cons, if_true]
    exact ⟨_, rfl⟩

theorem rmwl_copy_ws_block (bufsiz : Nat) (X rest item : List Nat) (out : OStream) (fuel : Nat)
    (b : WsBlock) (hb : is_blank b.before) (ha : is_blank b.after) (hc : canonical b.addr)
    (hfit : (ws_line b).length + 1 < CONFIG_LINE_MAX) (hX : is_addr17 X) :
    rmwl_copy bufsiz X (fuel + 1) (ws_block b ++ rest) item out =
      rmwl_copy bufsiz X fuel rest item_zero
        (if caseeq b.addr X then out else fwrite bufsiz out (ws_block b)) := by
  rw [ws_block_eq, rmwl_copy]
  simp only [fgets_short_line _ _ 123 (show 123 ≠ 10 by decide)]
  rw [if_pos (by rfl)]
  have hlen : (ws_line b ++ 10 :: 125 :: 10 :: rest).length + 1 =
      ((ws_line b).length + rest.length + 2) + 2 := by
    simp only [List.length_append, List.length_cons]
    omega
  obtain ⟨item1, h⟩ := rmwl_block_ws bufsiz X rest item_zero out
    ((ws_line b).length + rest.length + 2) b hb ha hc hfit hX
  rw [hlen, h]

theorem ws_file_nil : ws_file [] = [] := rfl

theorem ws_file_cons (b : WsBlock) (bs : List WsBlock) :
    ws_file (b :: bs) = ws_block b ++ ws_file bs := by
  simp [ws_file]

theorem ws_file_length_ge (bs : List WsBlock) : bs.length ≤ (ws_file bs).length := by
  induction bs with
  | nil => simp
  | cons b bs ih =>
    rw [ws_file_cons, ws_block_eq]
    simp only [List.length_cons, List.length_append]
    omega

theorem rmwl_copy_ws_file (bufsiz : Nat) (X : List Nat) (hX : is_addr17 X) :
    ∀ (bs : List WsBlock) (fuel : Nat) (item : List Nat) (out : OStream),
      ws_form bs → ws_fits bs → bs.length < fuel →
      rmwl_copy bufsiz X fuel (ws_file bs) item out =
        some ((ws_keep X bs).foldl (fun o b => fwrite bufsiz o (ws_block b)) out) := by
  intro bs
  induction bs with
  | nil =>
    intro fuel item out _ _ hf
    match fuel, hf with
    | f + 1, _ => simp [ws_file_nil, rmwl_copy, fgets, ws_keep]
  | cons b bs ih =>
    intro fuel item out hform hfit hf
    obtain ⟨hb, ha, hc⟩ := hform b (List.mem_cons_self _ _)
    have hfb := hfit b (List.mem_cons_self _ _)
    obtain ⟨f, rfl⟩ : ∃ f, fuel = f + 1 := ⟨fuel - 1, by omega⟩
    rw [ws_file_cons, rmwl_copy_ws_block bufsiz X _ item out f b hb ha hc hfb hX,
      ih f item_zero _ (fun x hx => hform x (List.mem_cons_of_mem _ hx))
        (fun x hx => hfit x (List.mem_cons_of_mem _ hx)) (by simp at hf; omega)]
    by_cases hcase : caseeq b.addr X
    · simp [hcase, ws_keep]
    · simp [hcase, ws_keep]

theorem fwrite_ws_all (bufsiz : Nat) :
    ∀ (bs : List WsBlock) (out : OStream),
      (bs.foldl (fun o b => fwrite bufsiz o (ws_block b)) out).disk ++
        (bs.foldl (fun o b => fwrite bufsiz o (ws_block b)) out).buffer =
      out.disk ++ out.buffer ++ ws_file bs := by
  intro bs
  induction bs with
  | nil => intro out; simp [ws_file_nil]
  | cons b bs ih =>
    intro out
    rw [List.foldl_cons, ih, fwrite_all, ws_file_cons]
    simp

theorem strlen_addr17 (X : List Nat) (hX : is_addr17 X) : strlen X = 17 := by
  unfold strlen
  rw [cstr_of_no_nul X hX.2, hX.1]

theorem ws_keep_all (X : List Nat) (bs : List WsBlock) (h : ∀ b ∈ bs, ¬ caseeq b.addr X) :
    ws_keep X bs = bs := by
  unfold ws_keep
  rw [List.filter_eq_self]
  intro b hb
  simpa using h b hb

/-! ## Claims on the removal -/

set_option maxRecDepth 100000

/-- C14, as stated, fails: the whitelist file is the single block whose
address line is 249 spaces followed by `address="11:22:33:44:55:66"`, and the
target is "AA:BB:CC:DD:EE:FF".  The block has the stated form and its address
differs from the target, yet `cmd_rmwl` writes nothing: `fgets` cuts the line
after 255 bytes, in the middle of the keyword, and neither part contains
`address`. -/
theorem long_line_block_dropped :
    ws_form [long_block] ∧ is_addr17 addr_AA ∧ ¬ caseeq long_block.addr addr_AA ∧
    rmwl_written 4096 addr_AA (world_with (ws_file [long_block])) = some [] ∧
    ws_file (ws_keep addr_AA [long_block]) ≠ [] := by
  decide

/-- C14, amended: for every whitelist file that is a sequence of blocks of the
form `{` newline, one line with `address="A"` (a canonical address) between
optional spaces or tabs, `}` newline, every address line fitting with its
newline in the 255 bytes one `fgets` reads, and for every target `X` of 17
characters, what `cmd_rmwl(X)` has written to the staging stream when it calls
`rename`, and what the primary file holds after the process exit, is exactly
the sequence of the blocks whose address differs from `X` (letter case
ignored), each unchanged, in their original order; when no block matches `X`
it is the original content. -/
theorem rmwl_keeps_other_blocks (bufsiz : Nat) (X : List Nat) (bs : List WsBlock) (w : World)
    (hX : is_addr17 X) (hform : ws_form bs) (hfit : ws_fits bs)
    (hc : w.conf.getD [] = ws_file bs) (hs : w.swp = none) (hl : w.locked = false) :
    rmwl_written bufsiz X w = some (ws_file (ws_keep X bs)) ∧
    (run_rmwl bufsiz X w).map World.conf = some (some (ws_file (ws_keep X bs))) ∧
    ((∀ b ∈ bs, ¬ caseeq b.addr X) → rmwl_written bufsiz X w = some (ws_file bs)) := by
  have hcopy := rmwl_copy_ws_file bufsiz X hX bs ((ws_file bs).length + 1) item_zero ⟨[], []⟩
    hform hfit (by have := ws_file_length_ge bs; omega)
  have hall := fwrite_ws_all bufsiz (ws_keep X bs) ⟨[], []⟩
  simp only [List.nil_append] at hall
  have huntil : rmwl_until_rename bufsiz X w = some
      { conf := ws_file bs,
        swp := (ws_keep X bs).foldl (fun o b => fwrite bufsiz o (ws_block b)) ⟨[], []⟩ } := by
    unfold rmwl_until_rename
    rw [hs, hl]
    simp only [Option.isSome_none, Bool.false_eq_true, if_false, hc]
    rw [hcopy]
  have hwritten : rmwl_written bufsiz X w = some (ws_file (ws_keep X bs)) := by
    unfold rmwl_written
    rw [huntil]
    simp only [Option.map_some', hall]
  refine ⟨hwritten, ?_, ?_⟩
  · unfold run_rmwl cmd_rmwl
    rw [if_neg (by rw [strlen_addr17 X hX]; simp), huntil]
    simp only [Option.map_some', exit_process, hall]
  · intro hno
    rw [hwritten, ws_keep_all X bs hno]

/-- C14, amended, at a file of two blocks with blanks around the address,
from which "aa:bb:cc:dd:ee:ff" is removed under the spelling
"AA:BB:CC:DD:EE:FF": the block of "11:22:33:44:55:66" is written unchanged. -/
theorem rmwl_keeps_other_blocks_witness :
    is_addr17 addr_AA ∧
    ws_form [⟨[32, 9], addr_11, [9]⟩, ⟨[], addr_aa, [32]⟩] ∧
    ws_fits [⟨[32, 9], addr_11, [9]⟩, ⟨[], addr_aa, [32]⟩] ∧
    rmwl_written 4096 addr_AA (world_with (ws_file [⟨[32, 9], addr_11, [9]⟩, ⟨[], addr_aa, [32]⟩]))
      = some (str "\x7b\n \taddress=\"11:22:33:44:55:66\"\t\n\x7d\n") :=
  ⟨by decide, by decide, by decide,
    (rmwl_keeps_other_blocks 4096 addr_AA [⟨[32, 9], addr_11, [9]⟩, ⟨[], addr_aa, [32]⟩]
      (world_with (ws_file [⟨[32, 9], addr_11, [9]⟩, ⟨[], addr_aa, [32]⟩]))
      (by decide) (by decide) (by decide) rfl rfl rfl).1⟩

/-! ## Claims on the scan -/

theorem count_disable_step (calls extra : List HciCall)
    (h : HciCall.scan_disable ∉ extra) :
    (calls ++ extra).count HciCall.scan_disable = calls.count HciCall.scan_disable := by
  rw [List.count_append, List.count_eq_zero_of_not_mem h, Nat.add_zero]

theorem scan_iteration_calls (use_whitelist : Bool) (timeout : Nat) (it : ScanIter)
    (calls : List HciCall) :
    ∃ extra, HciCall.scan_disable ∉ extra ∧
      ((∃ b, scan_iteration use_whitelist timeout it calls = Sum.inl (b, calls ++ extra)) ∨
        scan_iteration use_whitelist timeout it calls = Sum.inr (calls ++ extra)) := by
  unfold scan_iteration
  by_cases h1 : it.running_time > timeout
  · exact ⟨[], by simp, Or.inl ⟨false, by simp [h1]⟩⟩
  by_cases h2 : it.poll_ret < 0
  · exact ⟨[HciCall.poll], by simp, Or.inl ⟨false, by simp [h1, h2]⟩⟩
  by_cases h3 : it.poll_ret = 0
  · exact ⟨[HciCall.poll], by simp, Or.inl ⟨false, by simp [h1, h3]⟩⟩
  by_cases h4 : it.pollin = false
  · exact ⟨[HciCall.poll], by simp, Or.inl ⟨false, by simp [h1, h2, h3, h4]⟩⟩
  by_cases h5 : it.read_end ≠ ReadEnd.ok
  · exact ⟨[HciCall.poll] ++ List.replicate (it.read_retries + 1) HciCall.read,
      by simp [List.mem_replicate], Or.inl ⟨false, by simp [h1, h2, h3, h4, h5]⟩⟩
  by_cases h6 : it.adv_report = false
  · exact ⟨[HciCall.poll] ++ List.replicate (it.read_retries + 1) HciCall.read,
      by simp [List.mem_replicate], Or.inl ⟨false, by simp [h1, h2, h3, h4, h5, h6]⟩⟩
  by_cases h7 : it.parse_ok = false
  · exact ⟨[HciCall.poll] ++ List.replicate (it.read_retries + 1) HciCall.read ++
        [HciCall.parse_ip_service],
      by simp [List.mem_replicate], Or.inr (by simp [h1, h2, h3, h4, h5, h6, h7])⟩
  by_cases h8 : use_whitelist = false
  · exact ⟨[HciCall.poll] ++ List.replicate (it.read_retries + 1) HciCall.read ++
        [HciCall.parse_ip_service],
      by simp [List.mem_replicate], Or.inl ⟨true, by simp [h1, h2, h3, h4, h5, h6, h7, h8]⟩⟩
  by_cases h9 : it.in_whitelist = false
  · exact ⟨[HciCall.poll] ++ List.replicate (it.read_retries + 1) HciCall.read ++
        [HciCall.parse_ip_service, HciCall.check_whitelist],
      by simp [List.mem_replicate], Or.inr (by simp [h1, h2, h3, h4, h5, h6, h7, h8, h9])⟩
  · exact ⟨[HciCall.poll] ++ List.replicate (it.read_retries + 1) HciCall.read ++
        [HciCall.parse_ip_service, HciCall.check_whitelist],
      by simp [List.mem_replicate],
      Or.inl ⟨true, by simp [h1, h2, h3, h4, h5, h6, h7, h8, h9]⟩⟩

theorem scan_iteration_no_disable (use_whitelist : Bool) (timeout : Nat) (it : ScanIter)
    (calls : List HciCall) :
    (∀ r, scan_iteration use_whitelist timeout it calls = Sum.inl r →
      r.2.count HciCall.scan_disable = calls.count HciCall.scan_disable) ∧
    (∀ c, scan_iteration use_whitelist timeout it calls = Sum.inr c →
      c.count HciCall.scan_disable = calls.count HciCall.scan_disable) := by
  obtain ⟨extra, hx, hc⟩ := scan_iteration_calls use_whitelist timeout it calls
  constructor
  · intro r h
    rcases hc with ⟨b, hb⟩ | hb
    · rw [hb] at h
      cases h
      exact count_disable_step calls extra hx
    · rw [hb] at h
      cases h
  · intro c h
    rcases hc with ⟨b, hb⟩ | hb
    · rw [hb] at h
      cases h
    · rw [hb] at h
      cases h
      exact count_disable_step calls extra hx

theorem scan_iteration_true (use_whitelist : Bool) (timeout : Nat) (it : ScanIter)
    (calls : List HciCall) (r : Bool × List HciCall)
    (h : scan_iteration use_whitelist timeout it calls = Sum.inl r) (hr : r.1 = true) :
    it.parse_ok = true ∧ (use_whitelist = true → it.in_whitelist = true) := by
  unfold scan_iteration at h
  split_ifs at h with h1 h2 h3 h4 h5 h6 h7 h8 h9
  all_goals first
    | (cases h; cases hr; done)
    | (cases h; done)
    | skip
  · exact ⟨by simpa using h7, fun hw => by simp [hw] at h8⟩
  · exact ⟨by simpa using h7, fun _ => by simpa using h9⟩

theorem scan_iteration_elapsed (use_whitelist : Bool) (timeout : Nat) (it : ScanIter)
    (calls : List HciCall) (h : it.running_time > timeout) :
    scan_iteration use_whitelist timeout it calls = Sum.inl (false, calls) := by
  unfold scan_iteration
  rw [if_pos h]

theorem scan_loop_no_disable (use_whitelist : Bool) (timeout : Nat) (iter : Nat → ScanIter) :
    ∀ (fuel k : Nat) (calls : List HciCall) (r : Bool × List HciCall),
      scan_loop use_whitelist timeout iter fuel k calls = some r →
      r.2.count HciCall.scan_disable = calls.count HciCall.scan_disable := by
  intro fuel
  induction fuel with
  | zero => intro k calls r h; simp [scan_loop] at h
  | succ n ih =>
    intro k calls r h
    rw [scan_loop] at h
    split at h
    · cases h; rfl
    · have hs := scan_iteration_no_disable use_whitelist timeout (iter k) calls
      split at h
      · rename_i r0 he
        cases h
        exact hs.1 _ he
      · rename_i c he
        rw [ih _ _ _ h]
        exact hs.2 _ he

theorem scan_loop_true (use_whitelist : Bool) (timeout : Nat) (iter : Nat → ScanIter) :
    ∀ (fuel k : Nat) (calls : List HciCall) (r : Bool × List HciCall),
      scan_loop use_whitelist timeout iter fuel k calls = some r → r.1 = true →
      ∃ j, (iter j).parse_ok = true ∧ (use_whitelist = true → (iter j).in_whitelist = true) := by
  intro fuel
  induction fuel with
  | zero => intro k calls r h; simp [scan_loop] at h
  | succ n ih =>
    intro k calls r h hr
    rw [scan_loop] at h
    split at h
    · cases h; cases hr
    · split at h
      · rename_i r0 he
        cases h
        exact ⟨k, scan_iteration_true use_whitelist timeout (iter k) calls _ he hr⟩
      · exact ih _ _ _ h hr

theorem scan_loop_returns (use_whitelist : Bool) (timeout : Nat) (iter : Nat → ScanIter) :
    ∀ (fuel k : Nat) (calls : List HciCall),
      (∃ j, k ≤ j ∧ j < k + fuel ∧ (iter j).running_time > timeout) →
      ∃ r, scan_loop use_whitelist timeout iter fuel k calls = some r := by
  intro fuel
  induction fuel with
  | zero => rintro k calls ⟨j, h1, h2, _⟩; omega
  | succ n ih =>
    rintro k calls ⟨j, h1, h2, h3⟩
    rw [scan_loop]
    split
    · exact ⟨_, rfl⟩
    · by_cases hk : (iter k).running_time > timeout
      · rw [scan_iteration_elapsed use_whitelist timeout (iter k) calls hk]
        exact ⟨_, rfl⟩
      · have hjk : j ≠ k := fun e => hk (e ▸ h3)
        split
        · exact ⟨_, rfl⟩
        · exact ih _ _ ⟨j, by omega, by omega, h3⟩

/-- C15, as stated, fails: when `hci_le_set_scan_parameters` fails, or when
enabling the scan fails, `scan_ipsp_device` returns false at once and the
disable-scan command is not issued. -/
theorem early_return_without_disable :
    scan_ipsp_device
      { set_parameters_err := -1, enable_err := 0, getsockopt_ok := true, setsockopt_ok := true,
        disable_err := 0, iter := fun _ => ⟨0, 0, false, 0, ReadEnd.ok, false, false, false⟩ }
      5 false 1 = some (false, [HciCall.set_scan_parameters]) ∧
    scan_ipsp_device
      { set_parameters_err := 0, enable_err := -1, getsockopt_ok := true, setsockopt_ok := true,
        disable_err := 0, iter := fun _ => ⟨0, 0, false, 0, ReadEnd.ok, false, false, false⟩ }
      5 false 1 = some (false, [HciCall.set_scan_parameters, HciCall.scan_enable]) ∧
    ([HciCall.set_scan_parameters] : List HciCall).count HciCall.scan_disable = 0 ∧
    ([HciCall.set_scan_parameters, HciCall.scan_enable] : List HciCall).count
      HciCall.scan_disable = 0 := by
  decide

/-- C15, amended: in every execution of `scan_ipsp_device` that returns, the
disable-scan command is issued exactly once, as the last call, on every exit
path taken after scanning was enabled (candidate accepted, deadline elapsed,
poll timeout, poll error, read error, interrupt, an event that is not an
advertising report, failure to get or set the socket filter), and not at all
on the two exits taken before scanning is on (failure to set the scan
parameters, failure to enable scanning).  When scanning was enabled, the scan
window elapses within the iterations considered and no advertisement matches,
the function returns false with scanning disabled exactly once. -/
theorem scan_disable_once (env : ScanEnv) (timeout : Nat) (use_whitelist : Bool) (fuel : Nat) :
    (∀ r, scan_ipsp_device env timeout use_whitelist fuel = some r →
      r.2.count HciCall.scan_disable =
        (if env.set_parameters_err < 0 ∨ env.enable_err < 0 then 0 else 1) ∧
      (¬ (env.set_parameters_err < 0 ∨ env.enable_err < 0) →
        r.2.getLast? = some HciCall.scan_disable)) ∧
    (¬ env.set_parameters_err < 0 → ¬ env.enable_err < 0 →
      (∃ j, j < fuel ∧ (env.iter j).running_time > timeout) →
      (∀ j, ¬ ((env.iter j).parse_ok = true ∧
        (use_whitelist = true → (env.iter j).in_whitelist = true))) →
      ∃ calls, scan_ipsp_device env timeout use_whitelist fuel = some (false, calls) ∧
        calls.count HciCall.scan_disable = 1) := by
  have key : ∀ r, scan_ipsp_device env timeout use_whitelist fuel = some r →
      r.2.count HciCall.scan_disable =
        (if env.set_parameters_err < 0 ∨ env.enable_err < 0 then 0 else 1) ∧
      (¬ (env.set_parameters_err < 0 ∨ env.enable_err < 0) →
        r.2.getLast? = some HciCall.scan_disable) := by
    intro r h
    unfold scan_ipsp_device at h
    split at h
    · rename_i h1
      cases h
      simp [h1]
    split at h
    · rename_i h1 h2
      cases h
      simp [h2]
    rename_i h1 h2
    rw [if_neg (by tauto)]
    split at h
    · cases h
      simp [scan_done]
    split at h
    · cases h
      simp [scan_done]
    split at h
    · cases h
    · rename_i r0 hl
      cases h
      have := scan_loop_no_disable use_whitelist timeout env.iter fuel 0 _ r0 hl
      simp only [scan_done]
      constructor
      · rw [List.count_append, this]
        simp
      · intro _
        simp
  refine ⟨key, ?_⟩
  intro h1 h2 hel hno
  obtain ⟨j, hj1, hj2⟩ := hel
  obtain ⟨r0, hr0⟩ := scan_loop_returns use_whitelist timeout env.iter fuel 0
    [HciCall.set_scan_parameters, HciCall.scan_enable, HciCall.get_filter, HciCall.set_filter]
    ⟨j, by omega, by omega, hj2⟩
  have hfalse : r0.1 = false := by
    cases hb : r0.1
    · rfl
    · obtain ⟨i, hi⟩ := scan_loop_true use_whitelist timeout env.iter fuel 0 _ r0 hr0 hb
      exact absurd hi (hno i)
  have hret : ∃ r, scan_ipsp_device env timeout use_whitelist fuel = some r ∧ r.1 = false := by
    unfold scan_ipsp_device
    rw [if_neg h1, if_neg h2]
    split
    · exact ⟨_, rfl, by simp [scan_done]⟩
    split
    · exact ⟨_, rfl, by simp [scan_done]⟩
    rw [hr0]
    exact ⟨_, rfl, by simp [scan_done, hfalse]⟩
  obtain ⟨r, hr, hrf⟩ := hret
  refine ⟨r.2, ?_, ?_⟩
  · rw [hr, ← hrf]
  · have := (key r hr).1
    rw [if_neg (by tauto)] at this
    exact this

/-- C15, amended, at a scan window of 5 seconds in which one advertisement is
read and rejected by the parser and the clock then shows 6 seconds: the
function returns false and the last of its calls is the only disable-scan. -/
theorem scan_disable_once_witness :
    scan_ipsp_device scan_env_elapsed 5 false 2 =
      some (false, [HciCall.set_scan_parameters, HciCall.scan_enable, HciCall.get_filter,
        HciCall.set_filter, HciCall.poll, HciCall.read, HciCall.parse_ip_service,
        HciCall.restore_filter, HciCall.scan_disable]) ∧
    ([HciCall.set_scan_parameters, HciCall.scan_enable, HciCall.get_filter,
        HciCall.set_filter, HciCall.poll, HciCall.read, HciCall.parse_ip_service,
        HciCall.restore_filter, HciCall.scan_disable] : List HciCall).count
      HciCall.scan_disable = 1 ∧
    (∃ calls, scan_ipsp_device scan_env_elapsed 5 false 2 = some (false, calls) ∧
      calls.count HciCall.scan_disable = 1) :=
  ⟨by decide,
    ((scan_disable_once scan_env_elapsed 5 false 2).1
      (false, [HciCall.set_scan_parameters, HciCall.scan_enable, HciCall.get_filter,
        HciCall.set_filter, HciCall.poll, HciCall.read, HciCall.parse_ip_service,
        HciCall.restore_filter, HciCall.scan_disable]) (by decide)).1,
    (scan_disable_once scan_env_elapsed 5 false 2).2 (by decide) (by decide)
      ⟨1, by decide, by decide⟩
      (fun j => by
        unfold scan_env_elapsed
        by_cases h : j = 0 <;> simp [h])⟩

/-! ## Claims on the display name -/

theorem getD_memcpy (dst : List Nat) (doff : Nat) (src : List Nat) (soff n i : Nat)
    (h : i < dst.length) :
    (memcpy dst doff src soff n).getD i 0 =
      if doff ≤ i ∧ i < doff + n then rd src (soff + (i - doff)) else dst.getD i 0 := by
  unfold memcpy
  simp only [List.getD_eq_getElem?_getD]
  rw [List.getElem?_map, List.getElem?_range h]
  rfl

theorem field_step_name_inv (auth : commissioning_auth_t) (wifi : Nat → Option (List Nat))
    (st st1 : PState) (h : field_step auth wifi 29 st = some st1)
    (hl : st.buf.length = 30) (h29 : st.buf.getD 29 0 = 0) (hw : ∀ i ∈ st.writes, i ≤ 28) :
    st1.buf.length = 30 ∧ st1.buf.getD 29 0 = 0 ∧ ∀ i ∈ st1.writes, i ≤ 28 := by
  unfold field_step at h
  simp only at h
  split at h
  · cases h; exact ⟨hl, h29, hw⟩
  · split at h
    · split at h
      · cases h; exact ⟨hl, h29, hw⟩
      · rename_i hn
        cases h
        refine ⟨?_, ?_, ?_⟩
        · show (memcpy st.buf 0 st.eir 2 _).length = 30
          rw [memcpy_length, hl]
        · show (memcpy st.buf 0 st.eir 2 _).getD 29 0 = 0
          rw [getD_memcpy _ _ _ _ _ _ (by rw [hl]; omega), if_neg (by omega)]
          exact h29
        · intro i hi
          have hi2 : i ∈ st.writes ++ List.range ((rd st.eir 0 + SIZE_MOD - 1) % SIZE_MOD) := hi
          rcases List.mem_append.mp hi2 with h1 | h1
          · exact hw i h1
          · have := List.mem_range.mp h1
            omega
    · split at h
      · split at h
        · cases h
        · rename_i st2 hc
          cases h
          split at hc
          · split at hc
            · cases hc
            · cases hc; exact ⟨hl, h29, hw⟩
          · cases hc; exact ⟨hl, h29, hw⟩
      · cases h; exact ⟨hl, h29, hw⟩

theorem size_sub1 (L : Nat) (hL : L < 256) :
    (L + SIZE_MOD - 1) % SIZE_MOD = if L = 0 then SIZE_MOD - 1 else L - 1 := by
  simp only [SIZE_MOD]
  split <;> omega

theorem field_step_name (auth : commissioning_auth_t) (wifi : Nat → Option (List Nat))
    (st : PState) (ht : rd st.eir 1 = EIR_NAME_SHORT ∨ rd st.eir 1 = EIR_NAME_COMPLETE)
    (hl : st.buf.length = 30) :
    ∃ st1, field_step auth wifi 29 st = some st1 ∧
      if 1 ≤ rd st.eir 0 ∧ rd st.eir 0 - 1 ≤ 29 then
        (∀ i, i < rd st.eir 0 - 1 → rd st1.buf i = rd st.eir (2 + i)) ∧
        (∀ i, rd st.eir 0 - 1 ≤ i → st1.buf.getD i 0 = st.buf.getD i 0) ∧
        st1.writes = st.writes ++ List.range (rd st.eir 0 - 1)
      else st1.buf = st.buf ∧ st1.writes = st.writes := by
  have hnu : ¬ (rd st.eir 1 = EIR_UUID16_SOME ∨ rd st.eir 1 = EIR_UUID16_ALL) := by
    simp only [EIR_NAME_SHORT, EIR_NAME_COMPLETE, EIR_UUID16_SOME, EIR_UUID16_ALL] at ht ⊢
    omega
  have hL := rd_lt st.eir 0
  unfold field_step
  simp only [if_neg hnu, if_pos ht]
  rw [size_sub1 _ hL]
  by_cases h0 : rd st.eir 0 = 0
  · rw [if_pos h0, if_pos (by simp only [SIZE_MOD]; omega)]
    refine ⟨_, rfl, ?_⟩
    rw [if_neg (by omega)]
    exact ⟨rfl, rfl⟩
  · rw [if_neg h0]
    by_cases hbig : rd st.eir 0 - 1 > 29
    · rw [if_pos hbig]
      refine ⟨_, rfl, ?_⟩
      rw [if_neg (by omega)]
      exact ⟨rfl, rfl⟩
    · rw [if_neg hbig]
      refine ⟨_, rfl, ?_⟩
      rw [if_pos (by omega)]
      refine ⟨?_, ?_, rfl⟩
      · intro i hi
        show rd (memcpy st.buf 0 st.eir 2 (rd st.eir 0 - 1)) i = rd st.eir (2 + i)
        rw [rd_memcpy _ _ _ _ _ _ (by rw [hl]; omega), if_pos (by omega)]
        simp
      · intro i hi
        show (memcpy st.buf 0 st.eir 2 (rd st.eir 0 - 1)).getD i 0 = st.buf.getD i 0
        by_cases hi30 : i < st.buf.length
        · rw [getD_memcpy _ _ _ _ _ _ hi30, if_neg (by omega)]
        · rw [List.getD_eq_default _ _ (by rw [memcpy_length]; omega),
            List.getD_eq_default _ _ (by omega)]

theorem parse_loop_name_inv (auth : commissioning_auth_t) (wifi : Nat → Option (List Nat))
    (eir_len : Nat) :
    ∀ (fuel : Nat) (st : PState) (r : PResult),
      parse_loop auth wifi eir_len 29 fuel st = some r →
      st.buf.length = 30 → st.buf.getD 29 0 = 0 → (∀ i ∈ st.writes, i ≤ 28) →
      r.buf.length = 30 ∧ r.buf.getD 29 0 = 0 ∧ ∀ i ∈ r.writes, i ≤ 28 := by
  intro fuel
  induction fuel with
  | zero => intro st r h; simp [parse_loop] at h
  | succ n ih =>
    intro st r h hl h29 hw
    unfold parse_loop at h
    split at h
    · split at h
      · cases h; exact ⟨hl, h29, hw⟩
      · rename_i st1 hfs
        obtain ⟨a, b, c⟩ := field_step_name_inv auth wifi st st1 hfs hl h29 hw
        exact ih st1 r h a b c
    · cases h; exact ⟨hl, h29, hw⟩

theorem reach_name_inv (auth : commissioning_auth_t) (wifi : Nat → Option (List Nat))
    (eir_len : Nat) :
    ∀ (k : Nat) (st0 st : PState), reach auth wifi eir_len 29 k st0 = some st →
      st0.buf.length = 30 → st0.buf.getD 29 0 = 0 → (∀ i ∈ st0.writes, i ≤ 28) →
      st.buf.length = 30 ∧ st.buf.getD 29 0 = 0 ∧ ∀ i ∈ st.writes, i ≤ 28 := by
  intro k
  induction k with
  | zero =>
    intro st0 st h hl h29 hw
    simp only [reach, Option.some.injEq] at h
    subst h
    exact ⟨hl, h29, hw⟩
  | succ n ih =>
    intro st0 st h hl h29 hw
    unfold reach at h
    split at h
    · split at h
      · cases h
      · rename_i st1 hfs
        obtain ⟨a, b, c⟩ := field_step_name_inv auth wifi st0 st1 hfs hl h29 hw
        exact ih st1 st h a b c
    · cases h

theorem strlen_le_of_nul (l : List Nat) (n : Nat) (hn : n < l.length) (h0 : l.getD n 0 = 0) :
    strlen l ≤ n := by
  unfold strlen cstr
  by_contra hc
  have hlt : n < (l.takeWhile (· ≠ 0)).length := by omega
  have hmem := List.mem_takeWhile_imp (List.getElem_mem hlt)
  have hpre : l.takeWhile (· ≠ 0) <+: l := List.takeWhile_prefix _
  have heq : (l.takeWhile (· ≠ 0))[n] = l[n] := List.IsPrefix.getElem hpre hlt
  rw [heq] at hmem
  have : l[n] = 0 := by
    rw [List.getD_eq_getElem _ _ hn] at h0
    exact h0
  simp [this] at hmem

/-- C16: for every advertisement (any bytes, any declared length, any
authentication mode), `parse_ip_service` called with a zeroed 30-byte name
buffer and `buf_len = 29` returns; no write goes beyond index 28; on return the
buffer still has its 30 bytes with a NUL at index 29, so it holds a string of
at most 29 characters; and every name field (tag 0x08 or 0x09) the loop
reaches is copied in full to the start of the buffer when its length byte is
at least 1 and its payload of `field_len - 1` bytes is at most 29 bytes long,
and is refused, without any write, when the length byte is 0 or the payload is
longer. -/
theorem display_name_bounded (auth : commissioning_auth_t) (wifi : Nat → Option (List Nat))
    (auth_ssid_value : List Nat) (auth_ssid_len : Nat) (eir : List Nat) (eir_len : Nat) :
    (∃ r, parse_ip_service auth wifi auth_ssid_value auth_ssid_len eir eir_len
          (List.replicate DEVICE_NAME_LEN 0) (DEVICE_NAME_LEN - 1) = some r ∧
      (∀ i ∈ r.writes, i ≤ 28) ∧ r.buf.length = 30 ∧ r.buf.getD 29 0 = 0 ∧
      strlen r.buf ≤ 29) ∧
    (∀ k st, reach auth wifi eir_len (DEVICE_NAME_LEN - 1) k
        (parse_init auth_ssid_value auth_ssid_len eir (List.replicate DEVICE_NAME_LEN 0))
        = some st →
      (rd st.eir 1 = EIR_NAME_SHORT ∨ rd st.eir 1 = EIR_NAME_COMPLETE) →
      ∃ st1, field_step auth wifi (DEVICE_NAME_LEN - 1) st = some st1 ∧
        if 1 ≤ rd st.eir 0 ∧ rd st.eir 0 - 1 ≤ 29 then
          (∀ i, i < rd st.eir 0 - 1 → rd st1.buf i = rd st.eir (2 + i)) ∧
          (∀ i, rd st.eir 0 - 1 ≤ i → st1.buf.getD i 0 = st.buf.getD i 0) ∧
          st1.writes = st.writes ++ List.range (rd st.eir 0 - 1)
        else st1.buf = st.buf ∧ st1.writes = st.writes) := by
  have hinit_l : (parse_init auth_ssid_value auth_ssid_len eir
      (List.replicate DEVICE_NAME_LEN 0)).buf.length = 30 := List.length_replicate _ _
  have hinit_0 : (parse_init auth_ssid_value auth_ssid_len eir
      (List.replicate DEVICE_NAME_LEN 0)).buf.getD 29 0 = 0 :=
    show (List.replicate DEVICE_NAME_LEN 0).getD 29 0 = 0 by decide
  have hinit_w : ∀ i ∈ (parse_init auth_ssid_value auth_ssid_len eir
      (List.replicate DEVICE_NAME_LEN 0)).writes, i ≤ 28 := fun i hi => nomatch hi
  constructor
  · obtain ⟨r, hr⟩ := parse_loop_total auth wifi eir_len (DEVICE_NAME_LEN - 1) (eir_len + 1)
      (parse_init auth_ssid_value auth_ssid_len eir (List.replicate DEVICE_NAME_LEN 0))
      (by omega)
    obtain ⟨a, b, c⟩ := parse_loop_name_inv auth wifi eir_len _ _ r hr hinit_l hinit_0 hinit_w
    exact ⟨r, hr, c, a, b, strlen_le_of_nul r.buf 29 (by omega) b⟩
  · intro k st hk ht
    obtain ⟨a, _, _⟩ := reach_name_inv auth wifi eir_len k _ st hk hinit_l hinit_0 hinit_w
    exact field_step_name auth wifi st ht a

/-- C16 at the advertisement made of the UUID field and the complete name
"sensor-7": the eight bytes of the name are at the start of the buffer, the
rest is NUL, and the writes are the indices 0..7. -/
theorem display_name_bounded_witness :
    (parse_ip_service COMMISSIONING_AUTH_NONE (fun _ => none) (List.replicate 17 0) 0
      [0x03, 0x03, 0x20, 0x18, 0x09, 0x09, 115, 101, 110, 115, 111, 114, 45, 55] 14
      (List.replicate DEVICE_NAME_LEN 0) (DEVICE_NAME_LEN - 1)).map
        (fun r => (r.buf, r.writes))
      = some (name_sensor7 ++ List.replicate 22 0, [0, 1, 2, 3, 4, 5, 6, 7]) ∧
    (∃ r, parse_ip_service COMMISSIONING_AUTH_NONE (fun _ => none) (List.replicate 17 0) 0
          [0x03, 0x03, 0x20, 0x18, 0x09, 0x09, 115, 101, 110, 115, 111, 114, 45, 55] 14
          (List.replicate DEVICE_NAME_LEN 0) (DEVICE_NAME_LEN - 1) = some r ∧
      (∀ i ∈ r.writes, i ≤ 28) ∧ r.buf.length = 30 ∧ r.buf.getD 29 0 = 0 ∧
      strlen r.buf ≤ 29) :=
  ⟨by decide,
    (display_name_bounded COMMISSIONING_AUTH_NONE (fun _ => none) (List.replicate 17 0) 0
      [0x03, 0x03, 0x20, 0x18, 0x09, 0x09, 115, 101, 110, 115, 111, 114, 45, 55] 14).1⟩

end Bluetooth6lowpand
